import Mathlib

/-!
Verification of the address/name text-matching engine of the `loci` repository
(`app/api/verify-address/utilityBillOCR.ts`).

Strings are modelled as `List Char` (`Str`). JavaScript string primitives used
by the engine (`toLowerCase`, `replace` with the concrete regexes appearing in
the source, `split`, `includes`, `slice`/`join`) are embedded as executable
Lean functions on `Str`; JavaScript numbers are modelled as exact rationals
(`ℚ`).  All modelling is restricted to the ASCII behaviour of these
primitives, which is the range the engine's own character classes
(`[^\w\s]`, `[^a-z\s]`) operate on.
-/

set_option autoImplicit false

namespace Loci

/-- Strings as lists of characters. -/
abbrev Str := List Char

/-! ### Character primitives

`toLowerChar` models `String.prototype.toLowerCase` on ASCII: code points
65–90 (`A`–`Z`) are shifted by 32, all other characters are unchanged.
`isSpaceChar` models the common characters of the regex class `\s`
(space, tab, LF, CR, VT, FF); `isWordChar` models `\w` = `[A-Za-z0-9_]`. -/

def toLowerChar (c : Char) : Char :=
  if 65 ≤ c.toNat ∧ c.toNat ≤ 90 then Char.ofNat (c.toNat + 32) else c

def isSpaceChar (c : Char) : Bool :=
  decide (c.toNat = 32 ∨ c.toNat = 9 ∨ c.toNat = 10 ∨ c.toNat = 13 ∨
    c.toNat = 11 ∨ c.toNat = 12)

def isWordChar (c : Char) : Bool :=
  decide ((65 ≤ c.toNat ∧ c.toNat ≤ 90) ∨ (97 ≤ c.toNat ∧ c.toNat ≤ 122) ∨
    (48 ≤ c.toNat ∧ c.toNat ≤ 57) ∨ c.toNat = 95)

/-- One character of `text.toLowerCase().replace(/[^\w\s]/g, ' ')`:
lowercase the character, keep it when it is a word or whitespace character,
otherwise replace it by a space. -/
def normalizeChar (c : Char) : Char :=
  if isWordChar (toLowerChar c) || isSpaceChar (toLowerChar c) then toLowerChar c else ' '

/-- `text.toLowerCase().replace(/[^\w\s]/g, ' ')` over the whole string. -/
def cleanChars (s : Str) : Str := s.map normalizeChar

theorem toNat_charOfNat {n : Nat} (h : n < 55296) : (Char.ofNat n).toNat = n := by
  unfold Char.ofNat
  rw [dif_pos (Or.inl h)]
  simp [Char.ofNatAux, Char.toNat, UInt32.toNat]

theorem toNat_toLowerChar (c : Char) :
    (toLowerChar c).toNat =
      if 65 ≤ c.toNat ∧ c.toNat ≤ 90 then c.toNat + 32 else c.toNat := by
  unfold toLowerChar
  split
  · next h => rw [toNat_charOfNat (by omega)]
  · next _ => rfl

theorem toLowerChar_not_upper {c : Char} (h : ¬(65 ≤ c.toNat ∧ c.toNat ≤ 90)) :
    toLowerChar c = c := if_neg h

theorem toLowerChar_toLowerChar (c : Char) :
    toLowerChar (toLowerChar c) = toLowerChar c := by
  apply toLowerChar_not_upper
  rw [toNat_toLowerChar]
  split
  · next h => omega
  · next h => exact h

/-- Characters produced by `normalizeChar` are fixed points of `normalizeChar`. -/
theorem normalizeChar_idem (c : Char) :
    normalizeChar (normalizeChar c) = normalizeChar c := by
  by_cases h : (isWordChar (toLowerChar c) || isSpaceChar (toLowerChar c)) = true
  · have hc : normalizeChar c = toLowerChar c := by rw [normalizeChar, if_pos h]
    rw [hc, normalizeChar, toLowerChar_toLowerChar, if_pos h]
  · have hc : normalizeChar c = ' ' := by rw [normalizeChar, if_neg h]
    rw [hc]
    decide

/-! ### Generic string helpers

`containsStr hay needle` models `hay.includes(needle)`;
`splitTokens` models splitting on runs of whitespace and discarding empty
fragments; `splitOnChar` models `String.prototype.split` with a one-character
separator (keeping empty fragments, as JavaScript does). -/

def startsWithStr : Str → Str → Bool
  | _, [] => true
  | [], _ :: _ => false
  | c :: cs, d :: ds => c = d && startsWithStr cs ds

/-- Substring test: `containsStr hay needle` is `hay.includes(needle)`. -/
def containsStr : Str → Str → Bool
  | hay, needle =>
    if startsWithStr hay needle then true
    else
      match hay with
      | [] => false
      | _ :: rest => containsStr rest needle

theorem startsWithStr_iff (hay needle : Str) :
    startsWithStr hay needle = true ↔ ∃ suf, hay = needle ++ suf := by
  induction needle generalizing hay with
  | nil => simp [startsWithStr]
  | cons d ds ih =>
    cases hay with
    | nil => simp [startsWithStr]
    | cons c cs =>
      simp only [startsWithStr, Bool.and_eq_true, decide_eq_true_eq, ih cs]
      constructor
      · rintro ⟨rfl, suf, rfl⟩
        exact ⟨suf, rfl⟩
      · rintro ⟨suf, h⟩
        cases h
        exact ⟨rfl, suf, rfl⟩

theorem containsStr_iff (hay needle : Str) :
    containsStr hay needle = true ↔ ∃ pre suf, hay = pre ++ needle ++ suf := by
  induction hay with
  | nil =>
    rw [containsStr]
    constructor
    · intro h
      split at h
      · next hs =>
        obtain ⟨suf, hsuf⟩ := (startsWithStr_iff _ _).1 hs
        exact ⟨[], suf, by simpa using hsuf⟩
      · exact absurd h (by simp)
    · rintro ⟨pre, suf, h⟩
      have : startsWithStr [] needle = true := by
        rcases List.append_eq_nil.1 (List.append_eq_nil.1 h.symm).1 with ⟨_, h2⟩
        subst h2
        rfl
      simp [this]
  | cons c cs ih =>
    rw [containsStr]
    constructor
    · intro h
      split at h
      · next hs =>
        obtain ⟨suf, hsuf⟩ := (startsWithStr_iff _ _).1 hs
        exact ⟨[], suf, by simpa using hsuf⟩
      · next hs =>
        obtain ⟨pre, suf, hps⟩ := ih.1 h
        exact ⟨c :: pre, suf, by simp [hps]⟩
    · rintro ⟨pre, suf, h⟩
      split
      · rfl
      · next hs =>
        cases pre with
        | nil =>
          exfalso
          apply hs
          rw [startsWithStr_iff]
          exact ⟨suf, by simpa using h⟩
        | cons p ps =>
          apply ih.2
          refine ⟨ps, suf, ?_⟩
          simp only [List.cons_append] at h
          injection h with h1 h2

theorem containsStr_refl (s : Str) : containsStr s s = true := by
  rw [containsStr_iff]
  exact ⟨[], [], by simp⟩

theorem length_dropWhile_le (p : Char → Bool) (l : Str) :
    (l.dropWhile p).length ≤ l.length := by
  induction l with
  | nil => simp
  | cons a l ih =>
    rw [List.dropWhile_cons]
    split
    · exact le_trans ih (by simp only [List.length_cons]; omega)
    · exact le_rfl

/-- Fuelled worker for `splitTokens` (structural recursion on the fuel keeps
the function kernel-reducible; the fuel never runs out when it starts at the
string's length, since `dropWhile` never lengthens a list). -/
def splitTokensF : Nat → Str → List Str
  | _, [] => []
  | 0, _ :: _ => []
  | fuel + 1, c :: cs =>
    if isSpaceChar c then splitTokensF fuel cs
    else (c :: cs.takeWhile (fun d => !isSpaceChar d)) ::
      splitTokensF fuel (cs.dropWhile (fun d => !isSpaceChar d))

/-- Maximal runs of non-whitespace characters (splitting on whitespace and
dropping empty fragments). -/
def splitTokens (l : Str) : List Str := splitTokensF l.length l

theorem splitTokensF_congr : ∀ (f1 : Nat) (l : Str) (f2 : Nat),
    l.length ≤ f1 → l.length ≤ f2 → splitTokensF f1 l = splitTokensF f2 l := by
  intro f1
  induction f1 with
  | zero =>
    intro l f2 h1 h2
    cases l with
    | nil => cases f2 <;> rfl
    | cons c cs => simp at h1
  | succ f ih =>
    intro l f2 h1 h2
    cases l with
    | nil => cases f2 <;> rfl
    | cons c cs =>
      cases f2 with
      | zero => simp at h2
      | succ f2 =>
        simp only [List.length_cons] at h1 h2
        simp only [splitTokensF]
        have hcs : cs.length ≤ f := by omega
        have hcs2 : cs.length ≤ f2 := by omega
        by_cases hsp : isSpaceChar c = true
        · rw [if_pos hsp, if_pos hsp, ih cs f2 hcs hcs2]
        · rw [if_neg hsp, if_neg hsp,
            ih (cs.dropWhile (fun d => !isSpaceChar d)) f2
              (le_trans (length_dropWhile_le _ _) hcs)
              (le_trans (length_dropWhile_le _ _) hcs2)]

theorem takeWhile_all (p : Char → Bool) (xs : Str) (h : ∀ x ∈ xs, p x = true) :
    xs.takeWhile p = xs := by
  induction xs with
  | nil => rfl
  | cons a l ih =>
    simp only [List.takeWhile, h a (by simp)]
    rw [ih fun x hx => h x (by simp [hx])]

theorem dropWhile_all (p : Char → Bool) (xs : Str) (h : ∀ x ∈ xs, p x = true) :
    xs.dropWhile p = [] := by
  induction xs with
  | nil => rfl
  | cons a l ih =>
    simp only [List.dropWhile, h a (by simp)]
    exact ih fun x hx => h x (by simp [hx])

theorem takeWhile_append_stop (p : Char → Bool) (xs : Str) (y : Char) (ys : Str)
    (hx : ∀ x ∈ xs, p x = true) (hy : p y = false) :
    (xs ++ y :: ys).takeWhile p = xs := by
  induction xs with
  | nil => simp [List.takeWhile_cons, hy]
  | cons a l ih =>
    rw [List.cons_append, List.takeWhile_cons, if_pos (hx a (by simp)),
      ih fun x hx' => hx x (by simp [hx'])]

theorem dropWhile_append_stop (p : Char → Bool) (xs : Str) (y : Char) (ys : Str)
    (hx : ∀ x ∈ xs, p x = true) (hy : p y = false) :
    (xs ++ y :: ys).dropWhile p = y :: ys := by
  induction xs with
  | nil => simp [List.dropWhile_cons, hy]
  | cons a l ih =>
    rw [List.cons_append, List.dropWhile_cons, if_pos (hx a (by simp))]
    exact ih fun x hx' => hx x (by simp [hx'])

theorem splitTokens_nil : splitTokens [] = [] := rfl

theorem splitTokens_cons (c : Char) (cs : Str) :
    splitTokens (c :: cs) =
      if isSpaceChar c then splitTokens cs
      else (c :: cs.takeWhile (fun d => !isSpaceChar d)) ::
        splitTokens (cs.dropWhile (fun d => !isSpaceChar d)) := by
  show splitTokensF (cs.length + 1) (c :: cs) = _
  simp only [splitTokensF]
  by_cases hsp : isSpaceChar c = true
  · rw [if_pos hsp, if_pos hsp]
    rfl
  · rw [if_neg hsp, if_neg hsp]
    rw [splitTokensF_congr cs.length (cs.dropWhile (fun d => !isSpaceChar d))
      (cs.dropWhile (fun d => !isSpaceChar d)).length
      (length_dropWhile_le _ _) le_rfl]
    rfl

theorem splitTokens_cons_space {c : Char} (cs : Str) (h : isSpaceChar c = true) :
    splitTokens (c :: cs) = splitTokens cs := by
  rw [splitTokens_cons, if_pos h]

theorem splitTokens_single (t : Str) (ht : t ≠ [])
    (hns : ∀ c ∈ t, isSpaceChar c = false) : splitTokens t = [t] := by
  cases t with
  | nil => exact absurd rfl ht
  | cons c cs =>
    rw [splitTokens_cons, if_neg (by simp [hns c (by simp)])]
    rw [takeWhile_all _ _ (fun x hx => by simp [hns x (by simp [hx])]),
      dropWhile_all _ _ (fun x hx => by simp [hns x (by simp [hx])]),
      splitTokens_nil]

theorem splitTokens_token_append (t : Str) (rest : Str) (ht : t ≠ [])
    (hns : ∀ c ∈ t, isSpaceChar c = false) :
    splitTokens (t ++ ' ' :: rest) = t :: splitTokens rest := by
  cases t with
  | nil => exact absurd rfl ht
  | cons c cs =>
    rw [List.cons_append, splitTokens_cons, if_neg (by simp [hns c (by simp)])]
    rw [takeWhile_append_stop _ _ _ _
        (fun x hx => by simp [hns x (by simp [hx])]) (by decide),
      dropWhile_append_stop _ _ _ _
        (fun x hx => by simp [hns x (by simp [hx])]) (by decide)]
    rw [splitTokens_cons_space _ (by decide)]

theorem splitTokens_intercalate (ts : List Str)
    (h1 : ∀ t ∈ ts, t ≠ [])
    (h2 : ∀ t ∈ ts, ∀ c ∈ t, isSpaceChar c = false) :
    splitTokens (List.intercalate [' '] ts) = ts := by
  induction ts with
  | nil => simp [List.intercalate, splitTokens_nil]
  | cons t ts ih =>
    cases ts with
    | nil =>
      have h : List.intercalate [' '] [t] = t := by
        simp [List.intercalate, List.intersperse]
      rw [h]
      exact splitTokens_single t (h1 t (by simp)) (h2 t (by simp))
    | cons t' ts' =>
      have hstep : List.intercalate [' '] (t :: t' :: ts') =
          t ++ ' ' :: List.intercalate [' '] (t' :: ts') := by
        simp [List.intercalate, List.intersperse]
      rw [hstep, splitTokens_token_append t _ (h1 t (by simp)) (h2 t (by simp))]
      rw [ih (fun u hu => h1 u (by simp [hu])) (fun u hu => h2 u (by simp [hu]))]

theorem splitTokens_sound_aux : ∀ (n : Nat) (l : Str), l.length ≤ n →
    ∀ t ∈ splitTokens l, t ≠ [] ∧ ∀ c ∈ t, isSpaceChar c = false ∧ c ∈ l := by
  intro n
  induction n with
  | zero =>
    intro l hl
    have : l = [] := List.length_eq_zero.1 (Nat.le_zero.1 hl)
    subst this
    rw [splitTokens_nil]
    intro t ht
    exact absurd ht (by simp)
  | succ n ih =>
    intro l hl
    cases l with
    | nil =>
      rw [splitTokens_nil]
      intro t ht
      exact absurd ht (by simp)
    | cons c cs =>
      have hcs : cs.length ≤ n := by
        simp only [List.length_cons] at hl
        omega
      by_cases hsp : isSpaceChar c = true
      · rw [splitTokens_cons_space _ hsp]
        intro t ht
        obtain ⟨hne, hall⟩ := ih cs hcs t ht
        exact ⟨hne, fun d hd => ⟨(hall d hd).1, by simp [(hall d hd).2]⟩⟩
      · rw [splitTokens_cons, if_neg hsp]
        intro t ht
        rcases List.mem_cons.1 ht with h | h
        · subst h
          refine ⟨by simp, ?_⟩
          intro d hd
          rcases List.mem_cons.1 hd with h | h
          · subst h
            exact ⟨by simpa using hsp, by simp⟩
          · have hp := List.mem_takeWhile_imp h
            have hmem := List.takeWhile_subset _ h
            exact ⟨by simpa using hp, by simp [hmem]⟩
        · have hlen : (cs.dropWhile (fun d => !isSpaceChar d)).length ≤ n :=
            le_trans (length_dropWhile_le _ _) hcs
          obtain ⟨hne, hall⟩ := ih _ hlen t h
          refine ⟨hne, fun d hd => ⟨(hall d hd).1, ?_⟩⟩
          have := List.dropWhile_subset (l := cs) (fun d => !isSpaceChar d) (hall d hd).2
          simp [this]

theorem splitTokens_sound (l : Str) : ∀ t ∈ splitTokens l,
    t ≠ [] ∧ ∀ c ∈ t, isSpaceChar c = false ∧ c ∈ l :=
  splitTokens_sound_aux l.length l le_rfl

/-- JavaScript `split` with a single-character separator: fragments between
separator occurrences, empty fragments kept. -/
def splitOnChar (sep : Char) : Str → List Str
  | [] => [[]]
  | c :: cs =>
    if c = sep then [] :: splitOnChar sep cs
    else
      match splitOnChar sep cs with
      | [] => [[c]]
      | t :: ts => (c :: t) :: ts

/-! ### Text normalizer (`normalizeText`, utilityBillOCR.ts lines 604–617)

The source pipeline is
`text.toLowerCase().replace(/[^\w\s]/g, ' ')` followed by six ordered
word-boundary-anchored misspelling substitutions, then `.replace(/\s+/g, ' ')`
and `.trim()`.  After the character-cleaning step the string consists of word
characters separated by whitespace, and every replacement pattern is a purely
word-character alternation wrapped in `\b...\b`, so each substitution rewrites
exactly the maximal word-character tokens that match the pattern, and the
final whitespace collapse + trim joins the rewritten tokens with single
spaces.  `normalizeText` is embedded in that (equivalent) token form:
clean the characters, split into maximal non-whitespace tokens, rewrite each
token through the ordered rule list, and join with single spaces. -/

/-- Count and remove a leading run of the repeated character (used for the
`n+` / `k+` parts of the misspelling regexes). -/
def dropRun (c : Char) : Str → Nat × Str
  | [] => (0, [])
  | x :: xs =>
    if x = c then ((dropRun c xs).1 + 1, (dropRun c xs).2) else (0, x :: xs)

/-- Token matcher for `/\b(pen+isula|peninsular)\b/`. -/
def matchesPenisula (t : Str) : Bool :=
  (match t with
   | 'p' :: 'e' :: rest =>
     decide (1 ≤ (dropRun 'n' rest).1) &&
       decide ((dropRun 'n' rest).2 = "isula".toList)
   | _ => false) || decide (t = "peninsular".toList)

/-- Token matcher for `/\b(res[ie]dent[iae]al)\b/`. -/
def matchesResidential (t : Str) : Bool :=
  match t with
  | 'r' :: 'e' :: 's' :: c1 :: 'd' :: 'e' :: 'n' :: 't' :: c2 :: 'a' :: 'l' :: [] =>
    decide (c1 = 'i' ∨ c1 = 'e') && decide (c2 = 'i' ∨ c2 = 'a' ∨ c2 = 'e')
  | _ => false

/-- Token matcher for `/\b(sch?eme?)\b/`. -/
def matchesScheme (t : Str) : Bool :=
  decide (t = "scem".toList ∨ t = "sceme".toList ∨ t = "schem".toList ∨
    t = "scheme".toList)

/-- Token matcher for `/\b(lek+i)\b/`. -/
def matchesLekki (t : Str) : Bool :=
  match t with
  | 'l' :: 'e' :: rest =>
    decide (1 ≤ (dropRun 'k' rest).1) && decide ((dropRun 'k' rest).2 = "i".toList)
  | _ => false

/-- Token matcher for `/\b(etio[sa]a?)\b/`. -/
def matchesEtiosa (t : Str) : Bool :=
  decide (t = "etios".toList ∨ t = "etiosa".toList ∨ t = "etioa".toList ∨
    t = "etioaa".toList)

/-- Token matcher for `/\b(lag[ou]s)\b/`. -/
def matchesLagos (t : Str) : Bool :=
  decide (t = "lagos".toList ∨ t = "lagus".toList)

/-- One word-boundary substitution applied to a whole token. -/
def applyRule (m : Str → Bool) (rep : Str) (t : Str) : Str :=
  if m t then rep else t

/-- The six ordered misspelling substitutions of `normalizeText`, applied to
one token (peninsula first, lagos last, mirroring the `.replace` chain). -/
def fixToken (t : Str) : Str :=
  applyRule matchesLagos ("lagos".toList)
    (applyRule matchesEtiosa ("etiosa".toList)
      (applyRule matchesLekki ("lekki".toList)
        (applyRule matchesScheme ("scheme".toList)
          (applyRule matchesResidential ("residential".toList)
            (applyRule matchesPenisula ("peninsula".toList) t)))))

/-- `normalizeText` (lines 604–617): lowercase, replace non-word non-space
characters by spaces, apply the misspelling substitutions, collapse
whitespace runs and trim — i.e. join the rewritten tokens by single spaces. -/
def normalizeText (s : Str) : Str :=
  List.intercalate [' '] ((splitTokens (cleanChars s)).map fixToken)

/-- `normalizeForMatching` (lines 620–622): `normalizeText` plus
`.replace(/\s+/g, '')`, i.e. remove all whitespace. -/
def normalizeForMatching (s : Str) : Str :=
  (normalizeText s).filter (fun c => !isSpaceChar c)

/-- The canonical replacement words of the substitution table. -/
def ruleWords : List Str :=
  ["peninsula".toList, "residential".toList, "scheme".toList,
   "lekki".toList, "etiosa".toList, "lagos".toList]

theorem applyRule_or (m : Str → Bool) (rep t : Str) :
    applyRule m rep t = t ∨ applyRule m rep t = rep := by
  unfold applyRule
  split
  · exact Or.inr rfl
  · exact Or.inl rfl

theorem applyRule_mem {m : Str → Bool} {w : Str} (hw : w ∈ ruleWords) {t u : Str}
    (hu : u = t ∨ u ∈ ruleWords) :
    applyRule m w u = t ∨ applyRule m w u ∈ ruleWords := by
  rcases applyRule_or m w u with h | h
  · rw [h]; exact hu
  · rw [h]; exact Or.inr hw

/-- A token passes through `fixToken` either unchanged or becomes one of the
six canonical words. -/
theorem fixToken_cases (t : Str) : fixToken t = t ∨ fixToken t ∈ ruleWords := by
  unfold fixToken
  exact applyRule_mem (by decide)
    (applyRule_mem (by decide)
      (applyRule_mem (by decide)
        (applyRule_mem (by decide)
          (applyRule_mem (by decide)
            (applyRule_mem (by decide) (Or.inl rfl))))))

theorem fixToken_ne_nil {t : Str} (ht : t ≠ []) : fixToken t ≠ [] := by
  rcases fixToken_cases t with h | h
  · rw [h]; exact ht
  · rw [show ([] : Str) = [] from rfl]
    intro hnil
    rw [hnil] at h
    revert h
    decide

/-- Characters of a `fixToken` output are `normalizeChar`-fixed non-spaces
whenever the input token's characters are. -/
theorem fixToken_chars {t : Str}
    (h : ∀ c ∈ t, normalizeChar c = c ∧ isSpaceChar c = false) :
    ∀ c ∈ fixToken t, normalizeChar c = c ∧ isSpaceChar c = false := by
  rcases fixToken_cases t with hc | hc
  · rw [hc]; exact h
  · intro c hmem
    have : ∀ w ∈ ruleWords, ∀ c ∈ w, normalizeChar c = c ∧ isSpaceChar c = false := by
      decide
    exact this _ hc c hmem

theorem fixToken_idem (t : Str) : fixToken (fixToken t) = fixToken t := by
  rcases fixToken_cases t with hc | hc
  · rw [hc]; exact hc
  · have : ∀ w ∈ ruleWords, fixToken w = w := by decide
    rw [this _ hc]

theorem mem_intercalate_space {ws : List Str} {c : Char}
    (hc : c ∈ List.intercalate [' '] ws) : c = ' ' ∨ ∃ w ∈ ws, c ∈ w := by
  induction ws with
  | nil => simp [List.intercalate] at hc
  | cons t ts ih =>
    cases ts with
    | nil =>
      have h : List.intercalate [' '] [t] = t := by
        simp [List.intercalate, List.intersperse]
      rw [h] at hc
      exact Or.inr ⟨t, by simp, hc⟩
    | cons t' ts' =>
      have hstep : List.intercalate [' '] (t :: t' :: ts') =
          t ++ ' ' :: List.intercalate [' '] (t' :: ts') := by
        simp [List.intercalate, List.intersperse]
      rw [hstep] at hc
      rcases List.mem_append.1 hc with h | h
      · exact Or.inr ⟨t, by simp, h⟩
      · rcases List.mem_cons.1 h with h | h
        · exact Or.inl h
        · rcases ih h with h | ⟨w, hw, hcw⟩
          · exact Or.inl h
          · exact Or.inr ⟨w, by simp [hw], hcw⟩

/-- Every character of a normalized string is a fixed point of
`normalizeChar` and the string has no leading/trailing/duplicated spaces by
construction; this is the character-level half of idempotency. -/
theorem normalizeText_char_fixed (s : Str) :
    ∀ c ∈ normalizeText s, normalizeChar c = c := by
  intro c hc
  rcases mem_intercalate_space hc with h | ⟨w, hw, hcw⟩
  · rw [h]; decide
  · obtain ⟨t, ht, rfl⟩ := List.mem_map.1 hw
    have hsound := splitTokens_sound (cleanChars s) t ht
    have htok : ∀ d ∈ t, normalizeChar d = d ∧ isSpaceChar d = false := by
      intro d hd
      obtain ⟨hsp, hmem⟩ := hsound.2 d hd
      obtain ⟨c₀, _, rfl⟩ := List.mem_map.1 hmem
      exact ⟨normalizeChar_idem c₀, hsp⟩
    exact (fixToken_chars htok c hcw).1

theorem cleanChars_fixed {s : Str} (h : ∀ c ∈ s, normalizeChar c = c) :
    cleanChars s = s := by
  unfold cleanChars
  rw [List.map_congr_left h]
  simp

/-- C6 groundwork: the token list of a normalized string is exactly the
rewritten token list it was built from. -/
theorem splitTokens_normalizeText (s : Str) :
    splitTokens (normalizeText s) = (splitTokens (cleanChars s)).map fixToken := by
  unfold normalizeText
  apply splitTokens_intercalate
  · intro t ht
    obtain ⟨t₀, ht₀, rfl⟩ := List.mem_map.1 ht
    exact fixToken_ne_nil (splitTokens_sound (cleanChars s) t₀ ht₀).1
  · intro t ht c hc
    obtain ⟨t₀, ht₀, rfl⟩ := List.mem_map.1 ht
    have hsound := splitTokens_sound (cleanChars s) t₀ ht₀
    have htok : ∀ d ∈ t₀, normalizeChar d = d ∧ isSpaceChar d = false := by
      intro d hd
      obtain ⟨hsp, hmem⟩ := hsound.2 d hd
      obtain ⟨c₀, _, rfl⟩ := List.mem_map.1 hmem
      exact ⟨normalizeChar_idem c₀, hsp⟩
    exact (fixToken_chars htok c hc).2

/-- C6: text normalization is idempotent — for every string `s`,
`normalizeText (normalizeText s) = normalizeText s`, where `normalizeText`
lowercases, replaces non-word characters with spaces, applies the ordered
misspelling-substitution table (peninsula, residential, scheme, lekki,
etiosa, lagos families), collapses whitespace runs, and trims. -/
theorem C6_normalizeText_idempotent (s : Str) :
    normalizeText (normalizeText s) = normalizeText s := by
  have h1 : cleanChars (normalizeText s) = normalizeText s :=
    cleanChars_fixed (normalizeText_char_fixed s)
  calc normalizeText (normalizeText s)
      = List.intercalate [' ']
          ((splitTokens (cleanChars (normalizeText s))).map fixToken) := rfl
    _ = List.intercalate [' ']
          ((splitTokens (normalizeText s)).map fixToken) := by rw [h1]
    _ = List.intercalate [' ']
          ((((splitTokens (cleanChars s)).map fixToken)).map fixToken) := by
        rw [splitTokens_normalizeText]
    _ = List.intercalate [' '] ((splitTokens (cleanChars s)).map fixToken) := by
        rw [List.map_map]
        congr 1
        apply List.map_congr_left
        intro t _
        simp only [Function.comp_apply]
        exact fixToken_idem t
    _ = normalizeText s := rfl

/-! ### Similarity metrics (utilityBillOCR.ts lines 570–728)

All scores are exact rationals.  `levenshteinDistance` is the recurrence the
source's DP matrix fills in (`matrix[j][i] = min(del+1, ins+1, diag+cost)`
with `matrix[0][i] = i`, `matrix[j][0] = j`). -/

def levenshteinDistance : Str → Str → Nat
  | [], ys => ys.length
  | x :: xs, [] => (x :: xs).length
  | x :: xs, y :: ys =>
    min (min (levenshteinDistance (x :: xs) ys + 1)
        (levenshteinDistance xs (y :: ys) + 1))
      (levenshteinDistance xs ys + (if x = y then 0 else 1))
termination_by a b => (a.length, b.length)

/-- `calculateLevenshteinSimilarity` (lines 632–639). -/
def calculateLevenshteinSimilarity (s1 s2 : Str) : ℚ :=
  if s1 = s2 then 1
  else if s1.length = 0 ∨ s2.length = 0 then 0
  else 1 - (levenshteinDistance s1 s2 : ℚ) / (max s1.length s2.length : ℚ)

/-- `calculateSubstringMatch` (lines 592–601). -/
def calculateSubstringMatch (s1 s2 : Str) : ℚ :=
  if 3 ≤ s1.length ∧ 3 ≤ s2.length then
    if containsStr s1 s2 || containsStr s2 s1 then
      (min s1.length s2.length : ℚ) / (max s1.length s2.length : ℚ)
    else 0
  else 0

/-- The phonetic variant groups of `calculatePhoneticSimilarity`
(lines 663–670). -/
def phoneticVariantGroups : List (List Str) :=
  [["peninsula".toList, "pennisula".toList, "peninsular".toList, "penninsula".toList],
   ["residential".toList, "residental".toList, "residencial".toList, "resedential".toList],
   ["scheme".toList, "sheme".toList, "sceme".toList, "skeme".toList],
   ["lekki".toList, "leki".toList, "leky".toList, "lecki".toList],
   ["etiosa".toList, "etios".toList, "etiossa".toList, "etioosa".toList]]

/-- `calculatePhoneticSimilarity` (lines 663–680): 0.9 when both inputs lie
in the same variant group, else 0. -/
def calculatePhoneticSimilarity (s1 s2 : Str) : ℚ :=
  if phoneticVariantGroups.any (fun g => decide (s1 ∈ g) && decide (s2 ∈ g))
  then 0.9 else 0

/-- `determineMatchType` (lines 625–629). -/
def determineMatchType (similarity : ℚ) : String :=
  if 0.95 ≤ similarity then "exact"
  else if 0.8 ≤ similarity then "fuzzy"
  else "partial"

/-! Jaro–Winkler (lines 683–728).  The two imperative passes over the mutable
`str1Matches`/`str2Matches` arrays are embedded as `jaroPass1` (returns the
final `str2Matches` flags, the `str1Matches` flags in order, and the match
count) and `countTranspositions` (the `k`-pointer walk of the second pass). -/

/-- `matchWindow = Math.floor(max(len1,len2)/2) - 1` — may be `-1`. -/
def jaroWindow (len1 len2 : Nat) : Int := (max len1 len2 : Int) / 2 - 1

/-- `start = Math.max(0, i - matchWindow)`. -/
def windowStart (i : Nat) (mw : Int) : Nat := ((i : Int) - mw).toNat

/-- `end = Math.min(i + matchWindow + 1, str2.length)` (clamped to `ℕ`; a
negative value yields an empty scan range exactly as in the source). -/
def windowStop (i : Nat) (mw : Int) (len2 : Nat) : Nat :=
  min (((i : Int) + mw + 1).toNat) len2

/-- The inner `j` loop of the first pass: the first index in
`[start, stop)` whose `str2Matches` flag is unset and whose character equals
`c`. -/
def firstUnmatchedIdx (s2 : Str) (flags2 : List Bool) (c : Char)
    (start stop : Nat) : Option Nat :=
  (List.range' start (stop - start)).find?
    (fun j => !(flags2.getD j true) && decide (s2.get? j = some c))

/-- First pass over `str1` (argument `i` is the current index): returns
(final `str2Matches`, `str1Matches`, `matches`). -/
def jaroPass1 (s2 : Str) (mw : Int) : Str → Nat → List Bool →
    List Bool × List Bool × Nat
  | [], _, flags2 => (flags2, [], 0)
  | c :: rest, i, flags2 =>
    match firstUnmatchedIdx s2 flags2 c (windowStart i mw)
        (windowStop i mw s2.length) with
    | some j =>
      let r := jaroPass1 s2 mw rest (i + 1) (flags2.set j true)
      (r.1, true :: r.2.1, r.2.2 + 1)
    | none =>
      let r := jaroPass1 s2 mw rest (i + 1) flags2
      (r.1, false :: r.2.1, r.2.2)

/-- Second pass: walk `str1` with its flags; for each flagged position skip
unflagged `str2` entries, compare, and advance (`k++`).  The `[]` case is
unreachable whenever `str2` carries at least as many set flags as the
remaining flagged `str1` entries, which pass 1 guarantees. -/
def countTranspositions : List (Char × Bool) → List (Char × Bool) → Nat
  | [], _ => 0
  | p :: rest, l2 =>
    if p.2 then
      match l2.dropWhile (fun q => !q.2) with
      | [] => 0
      | q :: l2rest => (if p.1 = q.1 then 0 else 1) + countTranspositions rest l2rest
    else countTranspositions rest l2

/-- Shared-prefix count, capped at 4 (lines 721–725). -/
def commonPrefixUpTo : Nat → Str → Str → Nat
  | 0, _, _ => 0
  | _ + 1, [], _ => 0
  | _ + 1, _, [] => 0
  | k + 1, a :: as, b :: bs => if a = b then commonPrefixUpTo k as bs + 1 else 0

/-- `jaro = (m/len1 + m/len2 + (m - t/2)/m) / 3` (line 718). -/
def jaroValue (m t len1 len2 : Nat) : ℚ :=
  ((m : ℚ) / (len1 : ℚ) + (m : ℚ) / (len2 : ℚ) +
    ((m : ℚ) - (t : ℚ) / 2) / (m : ℚ)) / 3

/-- `jaro + 0.1 * prefix * (1 - jaro)` (line 727). -/
def winklerBoost (jaro : ℚ) (pfx : Nat) : ℚ := jaro + 0.1 * (pfx : ℚ) * (1 - jaro)

/-- The tail of `calculateJaroWinklerSimilarity` after pass 1 has produced
`r = (str2Matches, str1Matches, matches)`: `if (matches === 0) return 0`,
else the Winkler-boosted Jaro value. -/
def jaroAfterPass1 (s1 s2 : Str) (r : List Bool × List Bool × Nat) : ℚ :=
  if r.2.2 = 0 then 0
  else
    winklerBoost
      (jaroValue r.2.2 (countTranspositions (s1.zip r.2.1) (s2.zip r.1))
        s1.length s2.length)
      (commonPrefixUpTo 4 s1 s2)

/-- `calculateJaroWinklerSimilarity` (lines 683–728). -/
def calculateJaroWinklerSimilarity (s1 s2 : Str) : ℚ :=
  if s1 = s2 then 1
  else if s1.length = 0 ∨ s2.length = 0 then 0
  else jaroAfterPass1 s1 s2
    (jaroPass1 s2 (jaroWindow s1.length s2.length) s1 0
      (List.replicate s2.length false))

/-- `calculateAdvancedBlockSimilarity` (lines 570–589): weighted ensemble
exact×0.40 + substring×0.25 + levenshtein×0.15 + jaroWinkler×0.15 +
phonetic×0.05, over the for-matching normalizations of the two blocks. -/
def calculateAdvancedBlockSimilarity (block1 block2 : Str) : ℚ :=
  (if normalizeForMatching block1 = normalizeForMatching block2
    then (1 : ℚ) else 0) * 0.4 +
  calculateSubstringMatch (normalizeForMatching block1)
    (normalizeForMatching block2) * 0.25 +
  calculateLevenshteinSimilarity (normalizeForMatching block1)
    (normalizeForMatching block2) * 0.15 +
  calculateJaroWinklerSimilarity (normalizeForMatching block1)
    (normalizeForMatching block2) * 0.15 +
  calculatePhoneticSimilarity (normalizeForMatching block1)
    (normalizeForMatching block2) * 0.05

/-! ### Range lemmas for the similarity metrics -/

theorem levenshteinDistance_le_max (s1 s2 : Str) :
    levenshteinDistance s1 s2 ≤ max s1.length s2.length := by
  induction s1, s2 using levenshteinDistance.induct with
  | case1 ys => simp [levenshteinDistance]
  | case2 x xs => simp [levenshteinDistance]
  | case3 x xs y ys ih1 ih2 ih3 =>
    simp only [levenshteinDistance]
    refine le_trans (min_le_right _ _) ?_
    simp only [List.length_cons]
    split <;> omega

theorem calculateLevenshteinSimilarity_mem (s1 s2 : Str) :
    0 ≤ calculateLevenshteinSimilarity s1 s2 ∧
      calculateLevenshteinSimilarity s1 s2 ≤ 1 := by
  unfold calculateLevenshteinSimilarity
  split
  · norm_num
  split
  · norm_num
  · next h1 h2 =>
    have hmax : 0 < (max s1.length s2.length : ℚ) := by
      have : s1.length ≠ 0 ∧ s2.length ≠ 0 := by
        constructor <;> (intro h; exact h2 (by simp [h]))
      have : 1 ≤ max s1.length s2.length := by omega
      exact_mod_cast Nat.lt_of_lt_of_le Nat.zero_lt_one this
    have hd0 : 0 ≤ (levenshteinDistance s1 s2 : ℚ) := by positivity
    have hdle : (levenshteinDistance s1 s2 : ℚ) / (max s1.length s2.length : ℚ) ≤ 1 := by
      rw [div_le_one hmax]
      exact_mod_cast levenshteinDistance_le_max s1 s2
    have hge : 0 ≤ (levenshteinDistance s1 s2 : ℚ) / (max s1.length s2.length : ℚ) :=
      div_nonneg hd0 (le_of_lt hmax)
    constructor <;> linarith

theorem calculateSubstringMatch_mem (s1 s2 : Str) :
    0 ≤ calculateSubstringMatch s1 s2 ∧ calculateSubstringMatch s1 s2 ≤ 1 := by
  unfold calculateSubstringMatch
  split
  · next h =>
    split
    · have hmax : 0 < (max s1.length s2.length : ℚ) := by
        have : 1 ≤ max s1.length s2.length := by omega
        exact_mod_cast Nat.lt_of_lt_of_le Nat.zero_lt_one this
      have hle : (min s1.length s2.length : ℚ) / (max s1.length s2.length : ℚ) ≤ 1 := by
        rw [div_le_one hmax]
        exact_mod_cast min_le_max (a := s1.length) (b := s2.length)
      have hge : 0 ≤ (min s1.length s2.length : ℚ) / (max s1.length s2.length : ℚ) :=
        div_nonneg (by positivity) (le_of_lt hmax)
      exact ⟨hge, hle⟩
    · norm_num
  · norm_num

theorem calculatePhoneticSimilarity_cases (s1 s2 : Str) :
    calculatePhoneticSimilarity s1 s2 = 0 ∨ calculatePhoneticSimilarity s1 s2 = 0.9 := by
  unfold calculatePhoneticSimilarity
  split
  · exact Or.inr rfl
  · exact Or.inl rfl

theorem calculatePhoneticSimilarity_mem (s1 s2 : Str) :
    0 ≤ calculatePhoneticSimilarity s1 s2 ∧ calculatePhoneticSimilarity s1 s2 ≤ 1 := by
  rcases calculatePhoneticSimilarity_cases s1 s2 with h | h <;> rw [h] <;> norm_num

theorem commonPrefixUpTo_le (k : Nat) (s1 s2 : Str) : commonPrefixUpTo k s1 s2 ≤ k := by
  induction k generalizing s1 s2 with
  | zero => simp [commonPrefixUpTo]
  | succ k ih =>
    cases s1 with
    | nil => simp [commonPrefixUpTo]
    | cons a as =>
      cases s2 with
      | nil => simp [commonPrefixUpTo]
      | cons b bs =>
        simp only [commonPrefixUpTo]
        split
        · exact Nat.succ_le_succ (ih as bs)
        · omega

/-- Pass-1 bookkeeping: the returned `str1Matches` list has one entry per
`str1` character and the match count is the number of set entries. -/
theorem jaroPass1_flags1 (s2 : Str) (mw : Int) :
    ∀ (l : Str) (i : Nat) (flags2 : List Bool),
      (jaroPass1 s2 mw l i flags2).2.1.length = l.length ∧
      (jaroPass1 s2 mw l i flags2).2.2 =
        (jaroPass1 s2 mw l i flags2).2.1.countP (fun b => b) := by
  intro l
  induction l with
  | nil => intro i flags2; simp [jaroPass1]
  | cons c rest ih =>
    intro i flags2
    rw [jaroPass1]
    cases hfind : firstUnmatchedIdx s2 flags2 c (windowStart i mw)
        (windowStop i mw s2.length) with
    | some j =>
      have h := ih (i + 1) (flags2.set j true)
      simp [List.countP_cons, h.1, h.2]
    | none =>
      have h := ih (i + 1) flags2
      simp [List.countP_cons, h.1, h.2]

theorem firstUnmatchedIdx_some {s2 : Str} {flags2 : List Bool} {c : Char}
    {start stop j : Nat}
    (h : firstUnmatchedIdx s2 flags2 c start stop = some j) :
    j < stop ∧ flags2.getD j true = false ∧ s2.get? j = some c := by
  unfold firstUnmatchedIdx at h
  have hmem := List.mem_of_find?_eq_some h
  have hp := List.find?_some h
  rw [List.mem_range'_1] at hmem
  simp only [Bool.and_eq_true, Bool.not_eq_true', decide_eq_true_eq] at hp
  exact ⟨by omega, hp.1, hp.2⟩

theorem countP_set_true {flags : List Bool} {j : Nat} (hj : j < flags.length)
    (hf : flags.getD j true = false) :
    (flags.set j true).countP (fun b => b) = flags.countP (fun b => b) + 1 := by
  induction flags generalizing j with
  | nil => simp at hj
  | cons b bs ih =>
    cases j with
    | zero =>
      simp only [List.getD_cons_zero] at hf
      subst hf
      simp [List.countP_cons]
    | succ j =>
      simp only [List.getD_cons_succ] at hf
      simp only [List.length_cons] at hj
      simp only [List.set_cons_succ, List.countP_cons, ih (by omega) hf]
      omega

/-- Pass-1 bookkeeping for `str2Matches`: length is preserved and the number
of set flags grows by exactly the match count. -/
theorem jaroPass1_flags2 (s2 : Str) (mw : Int) :
    ∀ (l : Str) (i : Nat) (flags2 : List Bool), flags2.length = s2.length →
      (jaroPass1 s2 mw l i flags2).1.length = s2.length ∧
      (jaroPass1 s2 mw l i flags2).1.countP (fun b => b) =
        flags2.countP (fun b => b) + (jaroPass1 s2 mw l i flags2).2.2 := by
  intro l
  induction l with
  | nil => intro i flags2 hlen; simp [jaroPass1, hlen]
  | cons c rest ih =>
    intro i flags2 hlen
    rw [jaroPass1]
    cases hfind : firstUnmatchedIdx s2 flags2 c (windowStart i mw)
        (windowStop i mw s2.length) with
    | some j =>
      obtain ⟨hjlt, hflag, _⟩ := firstUnmatchedIdx_some hfind
      have hjlen : j < flags2.length := by
        have hle : windowStop i mw s2.length ≤ s2.length := min_le_right _ _
        omega
      have h := ih (i + 1) (flags2.set j true) (by simp [hlen])
      have hcount := countP_set_true hjlen hflag
      simp only []
      exact ⟨h.1, by rw [h.2, hcount]; omega⟩
    | none =>
      have h := ih (i + 1) flags2 hlen
      simpa using h

theorem countTranspositions_le (l1 l2 : List (Char × Bool)) :
    countTranspositions l1 l2 ≤ l1.countP (fun q => q.2) := by
  induction l1 generalizing l2 with
  | nil => simp [countTranspositions]
  | cons p rest ih =>
    rw [countTranspositions]
    split
    · next hp =>
      cases hdw : l2.dropWhile (fun q => !q.2) with
      | nil => exact Nat.zero_le _
      | cons q l2rest =>
        have := ih l2rest
        simp only [List.countP_cons]
        rw [if_pos hp]
        split <;> omega
    · next hp =>
      have := ih l2
      simp only [List.countP_cons]
      rw [if_neg hp]
      omega

theorem countP_zip_snd (l1 : Str) (l2 : List Bool) (h : l1.length = l2.length) :
    (l1.zip l2).countP (fun q => q.2) = l2.countP (fun b => b) := by
  induction l1 generalizing l2 with
  | nil =>
    have : l2 = [] := by
      cases l2
      · rfl
      · simp at h
    subst this
    simp
  | cons c cs ih =>
    cases l2 with
    | nil => simp at h
    | cons b bs =>
      simp only [List.zip_cons_cons, List.countP_cons, ih bs (by simpa using h)]

theorem countP_replicate_false (n : Nat) :
    (List.replicate n false).countP (fun b => b) = 0 := by
  induction n with
  | zero => simp
  | succ n ih => simp [List.replicate_succ, List.countP_cons, ih]

theorem jaroValue_mem {m t len1 len2 : Nat} (hm : 1 ≤ m) (h1 : m ≤ len1)
    (h2 : m ≤ len2) (ht : t ≤ m) :
    0 ≤ jaroValue m t len1 len2 ∧ jaroValue m t len1 len2 ≤ 1 := by
  have hmq : (0 : ℚ) < m := by exact_mod_cast hm
  have hl1 : (0 : ℚ) < len1 := by
    have : 1 ≤ len1 := le_trans hm h1
    exact_mod_cast this
  have hl2 : (0 : ℚ) < len2 := by
    have : 1 ≤ len2 := le_trans hm h2
    exact_mod_cast this
  have hq1 : (m : ℚ) / (len1 : ℚ) ≤ 1 := by
    rw [div_le_one hl1]; exact_mod_cast h1
  have hq1' : 0 ≤ (m : ℚ) / (len1 : ℚ) := by positivity
  have hq2 : (m : ℚ) / (len2 : ℚ) ≤ 1 := by
    rw [div_le_one hl2]; exact_mod_cast h2
  have hq2' : 0 ≤ (m : ℚ) / (len2 : ℚ) := by positivity
  have htq : (t : ℚ) ≤ m := by exact_mod_cast ht
  have hq3 : ((m : ℚ) - (t : ℚ) / 2) / (m : ℚ) ≤ 1 := by
    rw [div_le_one hmq]
    have : 0 ≤ (t : ℚ) := by positivity
    linarith
  have hq3' : 0 ≤ ((m : ℚ) - (t : ℚ) / 2) / (m : ℚ) := by
    apply div_nonneg _ (le_of_lt hmq)
    linarith
  unfold jaroValue
  constructor <;> linarith

theorem winklerBoost_mem {j : ℚ} {p : Nat} (hj0 : 0 ≤ j) (hj1 : j ≤ 1)
    (hp : p ≤ 4) : 0 ≤ winklerBoost j p ∧ winklerBoost j p ≤ 1 := by
  have hpq : (p : ℚ) ≤ 4 := by exact_mod_cast hp
  have hp0 : (0 : ℚ) ≤ p := by positivity
  have hmul : 0.1 * (p : ℚ) * (1 - j) ≤ 1 * (1 - j) := by
    apply mul_le_mul_of_nonneg_right _ (by linarith)
    linarith
  have hmul0 : 0 ≤ 0.1 * (p : ℚ) * (1 - j) := by
    apply mul_nonneg (by positivity) (by linarith)
  unfold winklerBoost
  constructor <;> linarith

/-- The Jaro–Winkler similarity always lies in [0, 1]. -/
theorem calculateJaroWinklerSimilarity_mem (s1 s2 : Str) :
    0 ≤ calculateJaroWinklerSimilarity s1 s2 ∧
      calculateJaroWinklerSimilarity s1 s2 ≤ 1 := by
  unfold calculateJaroWinklerSimilarity
  split
  · norm_num
  split
  · norm_num
  · next hne hlen =>
    have hflags1 := jaroPass1_flags1 s2 (jaroWindow s1.length s2.length) s1 0
      (List.replicate s2.length false)
    have hflags2 := jaroPass1_flags2 s2 (jaroWindow s1.length s2.length) s1 0
      (List.replicate s2.length false) (by simp)
    set r := jaroPass1 s2 (jaroWindow s1.length s2.length) s1 0
      (List.replicate s2.length false) with hr
    unfold jaroAfterPass1
    split
    · norm_num
    · next hm0 =>
      have hm : 1 ≤ r.2.2 := Nat.one_le_iff_ne_zero.2 hm0
      have hmle1 : r.2.2 ≤ s1.length := by
        rw [hflags1.2, ← hflags1.1]
        exact List.countP_le_length _
      have hmle2 : r.2.2 ≤ s2.length := by
        have := hflags2.2
        rw [countP_replicate_false] at this
        have hle := List.countP_le_length (fun b : Bool => b) (l := r.1)
        rw [hflags2.1] at hle
        omega
      have htle : countTranspositions (s1.zip r.2.1) (s2.zip r.1) ≤ r.2.2 := by
        have hbound := countTranspositions_le (s1.zip r.2.1) (s2.zip r.1)
        have hzip := countP_zip_snd s1 r.2.1 (by rw [hflags1.1])
        rw [hzip] at hbound
        rw [hflags1.2]
        exact hbound
      have hjv := jaroValue_mem hm hmle1 hmle2 htle
      exact winklerBoost_mem hjv.1 hjv.2 (commonPrefixUpTo_le 4 s1 s2)

/-- The combined block similarity lies in [0, 1]: the weights sum to 1 and
every component metric lies in [0, 1]. -/
theorem calculateAdvancedBlockSimilarity_mem (b1 b2 : Str) :
    0 ≤ calculateAdvancedBlockSimilarity b1 b2 ∧
      calculateAdvancedBlockSimilarity b1 b2 ≤ 1 := by
  have hsub := calculateSubstringMatch_mem (normalizeForMatching b1)
    (normalizeForMatching b2)
  have hlev := calculateLevenshteinSimilarity_mem (normalizeForMatching b1)
    (normalizeForMatching b2)
  have hjaro := calculateJaroWinklerSimilarity_mem (normalizeForMatching b1)
    (normalizeForMatching b2)
  have hph := calculatePhoneticSimilarity_mem (normalizeForMatching b1)
    (normalizeForMatching b2)
  unfold calculateAdvancedBlockSimilarity
  split <;> constructor <;> linarith [hsub.1, hsub.2, hlev.1, hlev.2,
    hjaro.1, hjaro.2, hph.1, hph.2]

theorem calculateLevenshteinSimilarity_self (s : Str) :
    calculateLevenshteinSimilarity s s = 1 := by
  unfold calculateLevenshteinSimilarity
  rw [if_pos rfl]

theorem calculateJaroWinklerSimilarity_self (s : Str) :
    calculateJaroWinklerSimilarity s s = 1 := by
  unfold calculateJaroWinklerSimilarity
  rw [if_pos rfl]

theorem calculateSubstringMatch_self (s : Str) :
    calculateSubstringMatch s s = if 3 ≤ s.length then 1 else 0 := by
  unfold calculateSubstringMatch
  by_cases h : 3 ≤ s.length
  · rw [if_pos ⟨h, h⟩, if_pos (by simp [containsStr_refl]), if_pos h]
    rw [min_self, max_self]
    apply div_self
    have : s.length ≠ 0 := by omega
    exact_mod_cast this
  · rw [if_neg (by tauto), if_neg h]

/-- Exact value of the combined similarity of a block with itself: the
substring component contributes only for length ≥ 3 and the phonetic
component contributes 0.9 only for the known variant words, so the value is
0.95 (or 0.70 for very short blocks) plus the phonetic share — never 1. -/
theorem calculateAdvancedBlockSimilarity_self (b : Str) :
    calculateAdvancedBlockSimilarity b b =
      (if 3 ≤ (normalizeForMatching b).length then (0.95 : ℚ) else 0.7) +
        0.05 * calculatePhoneticSimilarity (normalizeForMatching b)
          (normalizeForMatching b) := by
  unfold calculateAdvancedBlockSimilarity
  rw [if_pos rfl, calculateLevenshteinSimilarity_self,
    calculateJaroWinklerSimilarity_self, calculateSubstringMatch_self]
  split <;> ring

theorem calculateAdvancedBlockSimilarity_self_lt_one (b : Str) :
    calculateAdvancedBlockSimilarity b b < 1 := by
  rw [calculateAdvancedBlockSimilarity_self]
  rcases calculatePhoneticSimilarity_cases (normalizeForMatching b)
    (normalizeForMatching b) with h | h <;> rw [h] <;> split <;> norm_num

/-! ### Block matching (`performEnhancedBlockMatching`, lines 376–435)

The block-extraction helpers (`extractEnhancedAddressBlocks`,
`extractEnhancedTextBlocks`, lines 438–541) only produce the two input block
lists; the matcher and everything the claims are about operate on those
lists, so the matcher is embedded as a function of arbitrary block lists —
a superset of the reachable inputs. -/

/-- The running "bestMatch" record of the inner loop. -/
structure BestCand where
  block : Str
  similarity : ℚ
  matchType : String

/-- The inner `extractedBlocks.forEach` loop: keep the candidate with the
strictly larger similarity (so the first of equals wins). -/
def bestLoop (pb : Str) : List Str → BestCand → BestCand
  | [], best => best
  | eb :: rest, best =>
    bestLoop pb rest
      (if best.similarity < calculateAdvancedBlockSimilarity pb eb then
        { block := eb, similarity := calculateAdvancedBlockSimilarity pb eb,
          matchType := determineMatchType (calculateAdvancedBlockSimilarity pb eb) }
      else best)

/-- Best extracted block for one provided block, starting from the source's
initial record `{block: '', similarity: 0, matchType: 'partial'}`. -/
def bestMatchFor (pb : Str) (ebs : List Str) : BestCand :=
  bestLoop pb ebs { block := [], similarity := 0, matchType := "partial" }

/-- One element of `matchedBlocks`. -/
structure BlockMatchEntry where
  provided : Str
  matched : Str
  similarity : ℚ
  matchType : String

/-- The outer `providedBlocks.forEach` loop, returning
(`matchedBlocks`, `totalMatches`, `totalScore`); a pairing is accepted when
the best similarity is ≥ 0.7.  (ℚ addition is commutative, so accumulating
the score from the right yields the same total as the source's loop.) -/
def matchLoop (ebs : List Str) : List Str → List BlockMatchEntry × Nat × ℚ
  | [] => ([], 0, 0)
  | pb :: rest =>
    if (0.7 : ℚ) ≤ (bestMatchFor pb ebs).similarity then
      ({ provided := pb, matched := (bestMatchFor pb ebs).block,
         similarity := (bestMatchFor pb ebs).similarity,
         matchType := (bestMatchFor pb ebs).matchType } :: (matchLoop ebs rest).1,
       (matchLoop ebs rest).2.1 + 1,
       (matchLoop ebs rest).2.2 + (bestMatchFor pb ebs).similarity)
    else matchLoop ebs rest

/-- The record `performEnhancedBlockMatching` returns. -/
structure BlockMatchResult where
  providedBlocks : List Str
  extractedBlocks : List Str
  matchedBlocks : List BlockMatchEntry
  blockScore : ℚ
  totalMatches : Nat

/-- `performEnhancedBlockMatching` (lines 376–435) over given block lists:
`blockScore = providedBlocks.length > 0 ? totalScore / providedBlocks.length : 0`. -/
def performEnhancedBlockMatching (providedBlocks extractedBlocks : List Str) :
    BlockMatchResult :=
  { providedBlocks := providedBlocks
    extractedBlocks := extractedBlocks
    matchedBlocks := (matchLoop extractedBlocks providedBlocks).1
    blockScore :=
      if 0 < providedBlocks.length then
        (matchLoop extractedBlocks providedBlocks).2.2 / (providedBlocks.length : ℚ)
      else 0
    totalMatches := (matchLoop extractedBlocks providedBlocks).2.1 }

/-! ### Address scoring (`processUtilityBill`, lines 285–345) -/

/-- The staged floor boosts (lines 289–296): `blockCount ≥ 5` floors the
score at 85, `blockCount ≥ 3` at 75. -/
def boostedAddressScore (addressScore : ℚ) (blockCount : Nat) : ℚ :=
  if 5 ≤ blockCount then max addressScore 85
  else if 3 ≤ blockCount then max addressScore 75
  else addressScore

/-- `finalAddressScore` (lines 285–300): `addressScore = blockScore × 100`,
floor boosts, then the forced-100 override when `blockCount ≥ 5` and
`blockScore > 0.75`. -/
def computeFinalAddressScore (blockScore : ℚ) (blockCount : Nat) : ℚ :=
  if 5 ≤ blockCount ∧ (0.75 : ℚ) < blockScore then 100
  else boostedAddressScore (blockScore * 100) blockCount

/-- `addressThreshold` (line 303): 0.85 for 5+ block matches, else 0.75. -/
def addressThresholdOf (blockCount : Nat) : ℚ :=
  if 5 ≤ blockCount then 0.85 else 0.75

/-- The strict 5-gram scan (lines 318–326): slide a 5-token window from the
left, return the first window (joined by single spaces) contained in the
normalized extracted text. -/
def findNgram (text : Str) : List Str → Option Str
  | [] => none
  | w :: ws =>
    if 5 ≤ (w :: ws).length then
      if containsStr text (List.intercalate [' '] ((w :: ws).take 5)) then
        some (List.intercalate [' '] ((w :: ws).take 5))
      else findNgram text ws
    else none

/-! ### Name matching (`matchFullName` lines 768–799,
`calculateNameMatchScore` lines 801–826) -/

def isLowerAlpha (c : Char) : Bool := decide (97 ≤ c.toNat ∧ c.toNat ≤ 122)

/-- Fuelled worker for `collapseSpaces` (the fuel keeps the recursion
structural and kernel-reducible; it never runs out when it starts at the
string's length). -/
def collapseSpacesF : Nat → Str → Str
  | _, [] => []
  | 0, _ :: _ => []
  | fuel + 1, c :: cs =>
    if isSpaceChar c then ' ' :: collapseSpacesF fuel (cs.dropWhile isSpaceChar)
    else c :: collapseSpacesF fuel cs

/-- Collapse every whitespace run to a single space (`replace(/\s+/g, ' ')`). -/
def collapseSpaces (l : Str) : Str := collapseSpacesF l.length l

/-- `String.prototype.trim`. -/
def trimStr (s : Str) : Str :=
  ((s.dropWhile isSpaceChar).reverse.dropWhile isSpaceChar).reverse

/-- Name-side normalization (line 771):
`toLowerCase().replace(/[^a-z\s]/g, '').replace(/\s+/g, ' ').trim()` —
non-letters are deleted. -/
def normalizeNameProvided (s : Str) : Str :=
  trimStr (collapseSpaces
    ((s.map toLowerChar).filter (fun c => isLowerAlpha c || isSpaceChar c)))

/-- Text-side normalization (line 772):
`toLowerCase().replace(/[^a-z\s]/g, ' ').replace(/\s+/g, ' ')` —
non-letters become spaces, no trim. -/
def normalizeNameText (s : Str) : Str :=
  collapseSpaces
    ((s.map toLowerChar).map (fun c => if isLowerAlpha c || isSpaceChar c then c else ' '))

/-- `reduce((best, word) => max by strict >)` over the text's words with
initial value 0 (lines 783–786). -/
def bestLevAgainst (tok : Str) (words : List Str) : ℚ :=
  words.foldl
    (fun best w =>
      if best < calculateLevenshteinSimilarity tok w then
        calculateLevenshteinSimilarity tok w
      else best) 0

/-- `matchFullName` (lines 768–799).  `nameTokens` is
`split(' ').filter(Boolean)` of the trimmed collapsed name, i.e. its
whitespace tokens; `textWords` is `split(/\s+/)` of the normalized text —
a possible leading empty fragment of the JavaScript split has Levenshtein
similarity 0 against every non-empty token and similarity never exceeds the
running maximum strictly at 0, so dropping it does not change any fold. -/
def matchFullName (providedFullName text : Str) : Bool × Str :=
  if providedFullName = [] then (false, [])
  else if containsStr (normalizeNameText text) (normalizeNameProvided providedFullName)
  then (true, providedFullName)
  else
    if (0.6 : ℚ) ≤
        (((splitTokens (normalizeNameProvided providedFullName)).countP
          (fun tok => decide ((0.8 : ℚ) ≤
            bestLevAgainst tok (splitTokens (normalizeNameText text)))) : ℚ) /
          ((splitTokens (normalizeNameProvided providedFullName)).length : ℚ))
    then (true, providedFullName)
    else (false, [])

/-- `Math.round` (rounds half toward +∞). -/
def jsRound (x : ℚ) : ℚ := ((⌊x + 1/2⌋ : ℤ) : ℚ)

/-- `calculateNameMatchScore` (lines 801–826). -/
def calculateNameMatchScore (providedFullName text : Str) : ℚ :=
  if providedFullName = [] then 0
  else if containsStr (normalizeNameText text) (normalizeNameProvided providedFullName)
  then 100
  else
    jsRound
      ((if 0 < (splitTokens (normalizeNameProvided providedFullName)).length then
          ((splitTokens (normalizeNameProvided providedFullName)).map
            (fun tok => bestLevAgainst tok (splitTokens (normalizeNameText text)))).sum /
          ((splitTokens (normalizeNameProvided providedFullName)).length : ℚ)
        else 0) * 100)

/-! ### The verdicts of `processUtilityBill` (lines 279–367)

`processScoring` covers the pure scoring tail of `processUtilityBill`
(everything after OCR produced `extractedText` and the block extractors
produced the two block lists). -/

/-- The fields of the returned `OCRResult` that the claims are about. -/
structure PipelineResult where
  addressMatched : Bool
  fuzzyAddressMatched : Bool
  nameMatched : Bool
  finalAddressScore : ℚ
  nameScore : ℚ
  matchScore : ℚ
  matchedNgram : Str
  normalizedProvidedAddress : Str
  normalizedExtractedText : Str
  blockDetails : BlockMatchResult

/-- `normalizedProvidedAddress.split(' ').filter(Boolean)` (line 315). -/
def addressWords (providedAddress : Str) : List Str :=
  (splitOnChar ' ' (normalizeText providedAddress)).filter (fun w => decide (w ≠ []))

/-- Lines 316–333: the strict verdict together with `matchedNgram`.  With
5 or more tokens the 5-gram scan decides; otherwise the fuzzy comparison
`finalAddressScore >= addressThreshold * 100` is used and `matchedNgram`
stays empty. -/
def strictPair (finalAddressScore addressThreshold : ℚ) (net : Str)
    (words : List Str) : Bool × Str :=
  if 5 ≤ words.length then
    match findNgram net words with
    | some ng => (true, ng)
    | none => (false, [])
  else (decide (addressThreshold * 100 ≤ finalAddressScore), [])

def processScoring (providedAddress extractedText providedFullName : Str)
    (providedBlocks extractedBlocks : List Str) : PipelineResult :=
  let blockMatchResult := performEnhancedBlockMatching providedBlocks extractedBlocks
  let nameScore := calculateNameMatchScore providedFullName extractedText
  let finalAddressScore :=
    computeFinalAddressScore blockMatchResult.blockScore blockMatchResult.totalMatches
  let addressThreshold := addressThresholdOf blockMatchResult.totalMatches
  let npa := normalizeText providedAddress
  let net := normalizeText extractedText
  let strict := strictPair finalAddressScore addressThreshold net
    (addressWords providedAddress)
  let combinedScore :=
    if 5 ≤ blockMatchResult.totalMatches ∧ (0.75 : ℚ) < blockMatchResult.blockScore ∧
        finalAddressScore = 100 then (100 : ℚ)
    else jsRound (finalAddressScore * 0.7 + nameScore * 0.3)
  { addressMatched := strict.1
    fuzzyAddressMatched := decide (addressThreshold * 100 ≤ finalAddressScore)
    nameMatched := decide ((0.5 : ℚ) * 100 ≤ nameScore)
    finalAddressScore := finalAddressScore
    nameScore := nameScore
    matchScore := combinedScore
    matchedNgram := strict.2
    normalizedProvidedAddress := npa
    normalizedExtractedText := net
    blockDetails := blockMatchResult }

/-! ### Lemmas about block matching -/

theorem bestLoop_le (pb : Str) : ∀ (ebs : List Str) (best : BestCand),
    best.similarity ≤ (bestLoop pb ebs best).similarity ∧
    ∀ eb ∈ ebs, calculateAdvancedBlockSimilarity pb eb ≤ (bestLoop pb ebs best).similarity := by
  intro ebs
  induction ebs with
  | nil => intro best; exact ⟨le_rfl, by simp⟩
  | cons eb rest ih =>
    intro best
    rw [bestLoop]
    split
    · next h =>
      have hr := ih ⟨eb, calculateAdvancedBlockSimilarity pb eb,
        determineMatchType (calculateAdvancedBlockSimilarity pb eb)⟩
      refine ⟨le_trans (le_of_lt h) hr.1, ?_⟩
      intro e he
      rcases List.mem_cons.1 he with rfl | he'
      · exact hr.1
      · exact hr.2 e he'
    · next h =>
      have hr := ih best
      refine ⟨hr.1, ?_⟩
      intro e he
      rcases List.mem_cons.1 he with rfl | he'
      · exact le_trans (not_lt.1 h) hr.1
      · exact hr.2 e he'

theorem bestLoop_attain (pb : Str) : ∀ (ebs : List Str) (best : BestCand),
    bestLoop pb ebs best = best ∨
    ∃ eb ∈ ebs, (bestLoop pb ebs best).block = eb ∧
      (bestLoop pb ebs best).similarity = calculateAdvancedBlockSimilarity pb eb ∧
      (bestLoop pb ebs best).matchType =
        determineMatchType (calculateAdvancedBlockSimilarity pb eb) := by
  intro ebs
  induction ebs with
  | nil => intro best; exact Or.inl rfl
  | cons eb rest ih =>
    intro best
    rw [bestLoop]
    split
    · next h =>
      rcases ih ⟨eb, calculateAdvancedBlockSimilarity pb eb,
        determineMatchType (calculateAdvancedBlockSimilarity pb eb)⟩ with
        heq | ⟨e, he, h1, h2, h3⟩
      · rw [heq]
        exact Or.inr ⟨eb, by simp, rfl, rfl, rfl⟩
      · exact Or.inr ⟨e, by simp [he], h1, h2, h3⟩
    · next h =>
      rcases ih best with heq | ⟨e, he, h1, h2, h3⟩
      · exact Or.inl heq
      · exact Or.inr ⟨e, by simp [he], h1, h2, h3⟩

theorem bestMatchFor_nonneg (pb : Str) (ebs : List Str) :
    0 ≤ (bestMatchFor pb ebs).similarity :=
  (bestLoop_le pb ebs ⟨[], 0, "partial"⟩).1

theorem bestMatchFor_le_one (pb : Str) (ebs : List Str) :
    (bestMatchFor pb ebs).similarity ≤ 1 := by
  rcases bestLoop_attain pb ebs ⟨[], 0, "partial"⟩ with h | ⟨e, _, _, h2, _⟩
  · rw [bestMatchFor, h]
    norm_num
  · rw [bestMatchFor, h2]
    exact (calculateAdvancedBlockSimilarity_mem pb e).2

/-- The `matchedBlocks` entry built for an accepted provided block. -/
def acceptedEntry (ebs : List Str) (pb : Str) : BlockMatchEntry :=
  { provided := pb, matched := (bestMatchFor pb ebs).block,
    similarity := (bestMatchFor pb ebs).similarity,
    matchType := (bestMatchFor pb ebs).matchType }

theorem matchLoop_spec (ebs : List Str) : ∀ pbs : List Str,
    (matchLoop ebs pbs).1 =
      (pbs.filter (fun pb => decide ((0.7 : ℚ) ≤ (bestMatchFor pb ebs).similarity))).map
        (acceptedEntry ebs) ∧
    (matchLoop ebs pbs).2.1 = (matchLoop ebs pbs).1.length ∧
    (matchLoop ebs pbs).2.2 =
      ((matchLoop ebs pbs).1.map (fun e => e.similarity)).sum := by
  intro pbs
  induction pbs with
  | nil => simp [matchLoop]
  | cons pb rest ih =>
    rw [matchLoop]
    split
    · next h =>
      simp only [List.filter_cons, decide_eq_true_eq, if_pos h, List.map_cons,
        List.length_cons, List.sum_cons]
      refine ⟨by rw [ih.1]; rfl, by rw [ih.2.1], ?_⟩
      rw [ih.2.2]
      ring
    · next h =>
      simp only [List.filter_cons, decide_eq_true_eq, if_neg h]
      exact ih

theorem matchLoop_count_le (ebs : List Str) : ∀ pbs : List Str,
    (matchLoop ebs pbs).2.1 ≤ pbs.length := by
  intro pbs
  induction pbs with
  | nil => simp [matchLoop]
  | cons pb rest ih =>
    rw [matchLoop]
    split <;> simp only [List.length_cons] <;> omega

theorem matchLoop_total_bounds (ebs : List Str) : ∀ pbs : List Str,
    0 ≤ (matchLoop ebs pbs).2.2 ∧
      (matchLoop ebs pbs).2.2 ≤ ((matchLoop ebs pbs).2.1 : ℚ) := by
  intro pbs
  induction pbs with
  | nil => simp [matchLoop]
  | cons pb rest ih =>
    rw [matchLoop]
    split
    · next h =>
      have hle := bestMatchFor_le_one pb ebs
      have hge := bestMatchFor_nonneg pb ebs
      constructor
      · simp only []
        linarith [ih.1]
      · simp only []
        push_cast
        linarith [ih.2]
    · exact ih

theorem blockScore_mem (pbs ebs : List Str) :
    0 ≤ (performEnhancedBlockMatching pbs ebs).blockScore ∧
      (performEnhancedBlockMatching pbs ebs).blockScore ≤ 1 := by
  unfold performEnhancedBlockMatching
  simp only []
  split
  · next h =>
    have hb := matchLoop_total_bounds ebs pbs
    have hc := matchLoop_count_le ebs pbs
    have hlen : (0 : ℚ) < (pbs.length : ℚ) := by exact_mod_cast h
    constructor
    · exact div_nonneg hb.1 (le_of_lt hlen)
    · rw [div_le_one hlen]
      have : ((matchLoop ebs pbs).2.1 : ℚ) ≤ (pbs.length : ℚ) := by exact_mod_cast hc
      linarith [hb.2]
  · norm_num

/-! ### Lemmas about the strict 5-gram scan -/

/-- `words.slice(i, i + 5).join(' ')`. -/
def ngramAt (ws : List Str) (i : Nat) : Str :=
  List.intercalate [' '] ((ws.drop i).take 5)

theorem intercalate_space_single (t : Str) : List.intercalate [' '] [t] = t := by
  simp [List.intercalate, List.intersperse]

theorem intercalate_space_cons₂ (x y : Str) (zs : List Str) :
    List.intercalate [' '] (x :: y :: zs) =
      x ++ ' ' :: List.intercalate [' '] (y :: zs) := by
  simp [List.intercalate, List.intersperse]

theorem intercalate_space_ne_nil {x : Str} (hx : x ≠ []) (xs : List Str) :
    List.intercalate [' '] (x :: xs) ≠ [] := by
  cases xs with
  | nil =>
    rw [intercalate_space_single]
    exact hx
  | cons y ys =>
    rw [intercalate_space_cons₂]
    cases x with
    | nil => exact absurd rfl hx
    | cons c cs => simp

theorem ngramAt_cons (w : Str) (ws : List Str) (i : Nat) :
    ngramAt (w :: ws) (i + 1) = ngramAt ws i := by
  simp [ngramAt]

theorem findNgram_some {text : Str} : ∀ {ws : List Str} {ng : Str},
    findNgram text ws = some ng →
    ∃ i, i + 5 ≤ ws.length ∧ ng = ngramAt ws i ∧
      containsStr text (ngramAt ws i) = true ∧
      ∀ j < i, containsStr text (ngramAt ws j) = false := by
  intro ws
  induction ws with
  | nil => intro ng h; rw [findNgram] at h; exact absurd h (by simp)
  | cons w ws ih =>
    intro ng h
    rw [findNgram] at h
    split at h
    · next hlen =>
      split at h
      · next hc =>
        refine ⟨0, by simpa using hlen, ?_, ?_, by omega⟩
        · simpa [ngramAt] using (Option.some.inj h).symm
        · simpa [ngramAt] using hc
      · next hc =>
        obtain ⟨i, hi, hng, hcon, hmin⟩ := ih h
        refine ⟨i + 1, by simp only [List.length_cons]; omega,
          by rw [ngramAt_cons]; exact hng, by rw [ngramAt_cons]; exact hcon, ?_⟩
        intro j hj
        cases j with
        | zero =>
          simp only [ngramAt, List.drop_zero]
          simp only [Bool.not_eq_true] at hc
          exact hc
        | succ j =>
          rw [ngramAt_cons]
          exact hmin j (by omega)
    · next hlen => exact absurd h (by simp)

theorem findNgram_none {text : Str} : ∀ {ws : List Str},
    findNgram text ws = none →
    ∀ i, i + 5 ≤ ws.length → containsStr text (ngramAt ws i) = false := by
  intro ws
  induction ws with
  | nil => intro _ i hi; simp at hi
  | cons w ws ih =>
    intro h i hi
    rw [findNgram] at h
    split at h
    · next hlen =>
      split at h
      · next hc => exact absurd h (by simp)
      · next hc =>
        cases i with
        | zero =>
          simp only [ngramAt, List.drop_zero]
          simp only [Bool.not_eq_true] at hc
          exact hc
        | succ i =>
          rw [ngramAt_cons]
          exact ih h i (by simp only [List.length_cons] at hi; omega)
    · next hlen =>
      simp only [List.length_cons] at hi
      simp only [not_le, List.length_cons] at hlen
      omega

/-- A 5-token window of a list of non-empty tokens is a non-empty string. -/
theorem ngramAt_ne_nil {ws : List Str} (hne : ∀ w ∈ ws, w ≠ []) {i : Nat}
    (hi : i + 5 ≤ ws.length) : ngramAt ws i ≠ [] := by
  unfold ngramAt
  cases hdrop : ws.drop i with
  | nil =>
    have h0 := congrArg List.length hdrop
    rw [List.length_drop] at h0
    simp only [List.length_nil] at h0
    omega
  | cons w rest =>
    have hw : w ∈ ws := List.drop_subset i ws (hdrop ▸ List.mem_cons_self w rest)
    rw [show (5 : Nat) = 4 + 1 from rfl, List.take_succ_cons]
    exact intercalate_space_ne_nil (hne w hw) _

theorem ngramAt_window_length {ws : List Str} {i : Nat} (hi : i + 5 ≤ ws.length) :
    ((ws.drop i).take 5).length = 5 := by
  rw [List.length_take, List.length_drop]
  omega

/-! ### Range lemmas for the scores -/

theorem foldl_bestLev_mem (tok : Str) : ∀ (words : List Str) (b : ℚ),
    0 ≤ b → b ≤ 1 →
    0 ≤ words.foldl
        (fun best w =>
          if best < calculateLevenshteinSimilarity tok w then
            calculateLevenshteinSimilarity tok w
          else best) b ∧
      words.foldl
        (fun best w =>
          if best < calculateLevenshteinSimilarity tok w then
            calculateLevenshteinSimilarity tok w
          else best) b ≤ 1 := by
  intro words
  induction words with
  | nil => intro b h0 h1; exact ⟨h0, h1⟩
  | cons w rest ih =>
    intro b h0 h1
    rw [List.foldl_cons]
    by_cases h : b < calculateLevenshteinSimilarity tok w
    · rw [if_pos h]
      exact ih _ (calculateLevenshteinSimilarity_mem tok w).1
        (calculateLevenshteinSimilarity_mem tok w).2
    · rw [if_neg h]
      exact ih b h0 h1

theorem bestLevAgainst_mem (tok : Str) (words : List Str) :
    0 ≤ bestLevAgainst tok words ∧ bestLevAgainst tok words ≤ 1 :=
  foldl_bestLev_mem tok words 0 le_rfl (by norm_num)

theorem sum_bestLev_bounds (words : List Str) : ∀ tokens : List Str,
    0 ≤ (tokens.map (fun tok => bestLevAgainst tok words)).sum ∧
      (tokens.map (fun tok => bestLevAgainst tok words)).sum ≤ (tokens.length : ℚ) := by
  intro tokens
  induction tokens with
  | nil => simp
  | cons tok rest ih =>
    have h := bestLevAgainst_mem tok words
    simp only [List.map_cons, List.sum_cons, List.length_cons]
    push_cast
    constructor <;> linarith [ih.1, ih.2]

theorem jsRound_mem {x : ℚ} (h0 : 0 ≤ x) (h1 : x ≤ 100) :
    0 ≤ jsRound x ∧ jsRound x ≤ 100 := by
  unfold jsRound
  constructor
  · have hz : (0 : ℤ) ≤ ⌊x + 1/2⌋ := Int.le_floor.2 (by push_cast; linarith)
    exact_mod_cast hz
  · have hle : ⌊x + 1/2⌋ ≤ ⌊(201/2 : ℚ)⌋ := Int.floor_le_floor (by linarith)
    have h2 : ⌊(201/2 : ℚ)⌋ = 100 := by norm_num
    rw [h2] at hle
    exact_mod_cast hle

theorem calculateNameMatchScore_mem (providedFullName text : Str) :
    0 ≤ calculateNameMatchScore providedFullName text ∧
      calculateNameMatchScore providedFullName text ≤ 100 := by
  unfold calculateNameMatchScore
  split
  · norm_num
  split
  · norm_num
  · have hs := sum_bestLev_bounds (splitTokens (normalizeNameText text))
      (splitTokens (normalizeNameProvided providedFullName))
    apply jsRound_mem
    · split
      · next h =>
        have hlen : (0 : ℚ) <
            ((splitTokens (normalizeNameProvided providedFullName)).length : ℚ) := by
          exact_mod_cast h
        have := div_nonneg hs.1 (le_of_lt hlen)
        linarith
      · norm_num
    · split
      · next h =>
        have hlen : (0 : ℚ) <
            ((splitTokens (normalizeNameProvided providedFullName)).length : ℚ) := by
          exact_mod_cast h
        have hdiv : ((splitTokens (normalizeNameProvided providedFullName)).map
            (fun tok => bestLevAgainst tok (splitTokens (normalizeNameText text)))).sum /
            ((splitTokens (normalizeNameProvided providedFullName)).length : ℚ) ≤ 1 := by
          rw [div_le_one hlen]
          exact hs.2
        linarith
      · norm_num

theorem computeFinalAddressScore_mem {bs : ℚ} (h0 : 0 ≤ bs) (h1 : bs ≤ 1) (bc : Nat) :
    0 ≤ computeFinalAddressScore bs bc ∧ computeFinalAddressScore bs bc ≤ 100 := by
  unfold computeFinalAddressScore boostedAddressScore
  have hx0 : (0 : ℚ) ≤ bs * 100 := by linarith
  have hx1 : bs * 100 ≤ 100 := by linarith
  split_ifs
  · exact ⟨by norm_num, by norm_num⟩
  · exact ⟨le_trans (by norm_num) (le_max_right _ _), max_le hx1 (by norm_num)⟩
  · exact ⟨le_trans (by norm_num) (le_max_right _ _), max_le hx1 (by norm_num)⟩
  · exact ⟨hx0, hx1⟩

/-! ### Projection lemmas for `processScoring` -/

theorem processScoring_eq (pa et pfn : Str) (pbs ebs : List Str) :
    processScoring pa et pfn pbs ebs =
      { addressMatched :=
          (strictPair
            (computeFinalAddressScore (performEnhancedBlockMatching pbs ebs).blockScore
              (performEnhancedBlockMatching pbs ebs).totalMatches)
            (addressThresholdOf (performEnhancedBlockMatching pbs ebs).totalMatches)
            (normalizeText et) (addressWords pa)).1
        fuzzyAddressMatched :=
          decide (addressThresholdOf (performEnhancedBlockMatching pbs ebs).totalMatches * 100 ≤
            computeFinalAddressScore (performEnhancedBlockMatching pbs ebs).blockScore
              (performEnhancedBlockMatching pbs ebs).totalMatches)
        nameMatched := decide ((0.5 : ℚ) * 100 ≤ calculateNameMatchScore pfn et)
        finalAddressScore :=
          computeFinalAddressScore (performEnhancedBlockMatching pbs ebs).blockScore
            (performEnhancedBlockMatching pbs ebs).totalMatches
        nameScore := calculateNameMatchScore pfn et
        matchScore :=
          if 5 ≤ (performEnhancedBlockMatching pbs ebs).totalMatches ∧
              (0.75 : ℚ) < (performEnhancedBlockMatching pbs ebs).blockScore ∧
              computeFinalAddressScore (performEnhancedBlockMatching pbs ebs).blockScore
                (performEnhancedBlockMatching pbs ebs).totalMatches = 100 then (100 : ℚ)
          else jsRound
            (computeFinalAddressScore (performEnhancedBlockMatching pbs ebs).blockScore
              (performEnhancedBlockMatching pbs ebs).totalMatches * 0.7 +
              calculateNameMatchScore pfn et * 0.3)
        matchedNgram :=
          (strictPair
            (computeFinalAddressScore (performEnhancedBlockMatching pbs ebs).blockScore
              (performEnhancedBlockMatching pbs ebs).totalMatches)
            (addressThresholdOf (performEnhancedBlockMatching pbs ebs).totalMatches)
            (normalizeText et) (addressWords pa)).2
        normalizedProvidedAddress := normalizeText pa
        normalizedExtractedText := normalizeText et
        blockDetails := performEnhancedBlockMatching pbs ebs } := rfl

/-! ### Claim theorems -/

/-- C1: for every providedAddress whose fully-normalized form splits into at
least 5 whitespace tokens, the returned binding verdict `addressMatched` is
true iff some window of 5 consecutive tokens of the normalized provided
address, joined by single spaces, occurs verbatim as a substring of the
fully-normalized extractedText; and when it is true, `matchedNgram` is the
leftmost such window — a non-empty 5-token string. -/
theorem C1_strict_ngram_gate (pa et pfn : Str) (pbs ebs : List Str)
    (h5 : 5 ≤ (addressWords pa).length) :
    ((processScoring pa et pfn pbs ebs).addressMatched = true ↔
      ∃ i, i + 5 ≤ (addressWords pa).length ∧
        ∃ pre suf, normalizeText et = pre ++ ngramAt (addressWords pa) i ++ suf) ∧
    ((processScoring pa et pfn pbs ebs).addressMatched = true →
      ∃ i, i + 5 ≤ (addressWords pa).length ∧
        (processScoring pa et pfn pbs ebs).matchedNgram = ngramAt (addressWords pa) i ∧
        (∃ pre suf, normalizeText et = pre ++ ngramAt (addressWords pa) i ++ suf) ∧
        (∀ j < i,
          ¬ ∃ pre suf, normalizeText et = pre ++ ngramAt (addressWords pa) j ++ suf) ∧
        (processScoring pa et pfn pbs ebs).matchedNgram ≠ [] ∧
        (((addressWords pa).drop i).take 5).length = 5) := by
  have hne : ∀ w ∈ addressWords pa, w ≠ [] := by
    intro w hw
    have := (List.mem_filter.1 hw).2
    simpa using this
  rw [processScoring_eq]
  simp only []
  unfold strictPair
  rw [if_pos h5]
  cases hf : findNgram (normalizeText et) (addressWords pa) with
  | some ng =>
    obtain ⟨i, hi, hng, hcon, hmin⟩ := findNgram_some hf
    obtain ⟨pre, suf, hdecomp⟩ := (containsStr_iff _ _).1 hcon
    constructor
    · exact ⟨fun _ => ⟨i, hi, pre, suf, hdecomp⟩, fun _ => rfl⟩
    · intro _
      refine ⟨i, hi, by simpa using hng, ⟨pre, suf, hdecomp⟩, ?_, ?_, ?_⟩
      · intro j hj ⟨pre', suf', hd'⟩
        have htrue : containsStr (normalizeText et) (ngramAt (addressWords pa) j) = true :=
          (containsStr_iff _ _).2 ⟨pre', suf', hd'⟩
        rw [hmin j hj] at htrue
        exact absurd htrue (by simp)
      · simp only []
        rw [hng] at *
        exact ngramAt_ne_nil hne hi
      · exact ngramAt_window_length hi
  | none =>
    constructor
    · constructor
      · intro h
        exact absurd h (by simp)
      · rintro ⟨i, hi, pre, suf, hdecomp⟩
        have htrue : containsStr (normalizeText et) (ngramAt (addressWords pa) i) = true :=
          (containsStr_iff _ _).2 ⟨pre, suf, hdecomp⟩
        rw [findNgram_none hf i hi] at htrue
        exact absurd htrue (by simp)
    · intro h
      exact absurd h (by simp)

theorem C1_strict_ngram_gate_witness :
    5 ≤ (addressWords ("15 Adelabu Street Surulere Lagos".toList)).length ∧
    ((processScoring ("15 Adelabu Street Surulere Lagos".toList)
        ("Addr 15, ADELABU STREET, SURULERE, LAGOS; Bill".toList) [] [] []).addressMatched
          = true ↔
      ∃ i, i + 5 ≤ (addressWords ("15 Adelabu Street Surulere Lagos".toList)).length ∧
        ∃ pre suf,
          normalizeText ("Addr 15, ADELABU STREET, SURULERE, LAGOS; Bill".toList) =
            pre ++ ngramAt (addressWords ("15 Adelabu Street Surulere Lagos".toList)) i
              ++ suf) :=
  ⟨by decide,
   (C1_strict_ngram_gate ("15 Adelabu Street Surulere Lagos".toList)
     ("Addr 15, ADELABU STREET, SURULERE, LAGOS; Bill".toList) [] [] []
     (by decide)).1⟩

/-- C4: for every providedAddress whose fully-normalized form splits into
fewer than 5 whitespace tokens, the returned strict verdict `addressMatched`
equals the fuzzy verdict `fuzzyAddressMatched`, which is
`finalAddressScore ≥ adaptiveThreshold × 100` with threshold 0.85 for
`totalMatches ≥ 5` and 0.75 otherwise; the n-gram test is never used. -/
theorem C4_short_address_fallback (pa et pfn : Str) (pbs ebs : List Str)
    (h5 : (addressWords pa).length < 5) :
    (processScoring pa et pfn pbs ebs).addressMatched =
      (processScoring pa et pfn pbs ebs).fuzzyAddressMatched ∧
    ((processScoring pa et pfn pbs ebs).fuzzyAddressMatched = true ↔
      (if 5 ≤ (processScoring pa et pfn pbs ebs).blockDetails.totalMatches
        then (0.85 : ℚ) else 0.75) * 100 ≤
        (processScoring pa et pfn pbs ebs).finalAddressScore) := by
  rw [processScoring_eq]
  simp only []
  unfold strictPair addressThresholdOf
  rw [if_neg (by omega)]
  exact ⟨rfl, by simp⟩

theorem C4_short_address_fallback_witness :
    (addressWords ("Lekki Lagos".toList)).length < 5 ∧
    (processScoring ("Lekki Lagos".toList) ("some bill text".toList) [] [] []).addressMatched =
      (processScoring ("Lekki Lagos".toList) ("some bill text".toList) [] [] []).fuzzyAddressMatched :=
  ⟨by decide,
   (C4_short_address_fallback ("Lekki Lagos".toList) ("some bill text".toList) [] [] []
     (by decide)).1⟩

/-- C10: whenever the fully-normalized providedAddress has fewer than 5
tokens, `matchedNgram` is the empty string (also when `addressMatched` is
true via the fuzzy fallback); a non-empty `matchedNgram` arises only from
the 5-gram strict gate on addresses of at least 5 tokens, and then
`addressMatched` is true. -/
theorem C10_matchedNgram_only_from_gate (pa et pfn : Str) (pbs ebs : List Str) :
    ((addressWords pa).length < 5 →
      (processScoring pa et pfn pbs ebs).matchedNgram = []) ∧
    ((processScoring pa et pfn pbs ebs).matchedNgram ≠ [] →
      5 ≤ (addressWords pa).length ∧
        (processScoring pa et pfn pbs ebs).addressMatched = true) := by
  rw [processScoring_eq]
  simp only []
  unfold strictPair
  by_cases h5 : 5 ≤ (addressWords pa).length
  · rw [if_pos h5]
    cases hf : findNgram (normalizeText et) (addressWords pa) with
    | some ng =>
      exact ⟨fun h => by omega, fun _ => ⟨h5, rfl⟩⟩
    | none =>
      exact ⟨fun h => by omega, fun h => absurd rfl h⟩
  · rw [if_neg h5]
    exact ⟨fun _ => rfl, fun h => absurd rfl h⟩

theorem C10_matchedNgram_only_from_gate_witness :
    (addressWords ("Lekki Lagos".toList)).length < 5 ∧
    (processScoring ("Lekki Lagos".toList) ("lekki lagos bill".toList) [] [] []).matchedNgram = [] :=
  ⟨by decide,
   (C10_matchedNgram_only_from_gate ("Lekki Lagos".toList) ("lekki lagos bill".toList)
     [] [] []).1 (by decide)⟩

/-- C2: for every block-match result, `finalAddressScore` follows the floor
boosts (max with 85 when `totalMatches ≥ 5`, max with 75 when
`totalMatches ≥ 3`, plain `blockScore × 100` otherwise), the forced-100
override fires when `totalMatches ≥ 5` and `blockScore > 0.75`, and raising
`totalMatches` from 4 to 5 at constant `blockScore > 0.75` never decreases
`finalAddressScore`. -/
theorem C2_floor_boost_rules (pbs ebs : List Str) (tm : Nat) :
    (5 ≤ tm → (performEnhancedBlockMatching pbs ebs).blockScore ≤ 0.75 →
      computeFinalAddressScore (performEnhancedBlockMatching pbs ebs).blockScore tm =
        max ((performEnhancedBlockMatching pbs ebs).blockScore * 100) 85) ∧
    (5 ≤ tm → (0.75 : ℚ) < (performEnhancedBlockMatching pbs ebs).blockScore →
      computeFinalAddressScore (performEnhancedBlockMatching pbs ebs).blockScore tm = 100) ∧
    (tm < 5 → 3 ≤ tm →
      computeFinalAddressScore (performEnhancedBlockMatching pbs ebs).blockScore tm =
        max ((performEnhancedBlockMatching pbs ebs).blockScore * 100) 75) ∧
    (tm < 3 →
      computeFinalAddressScore (performEnhancedBlockMatching pbs ebs).blockScore tm =
        (performEnhancedBlockMatching pbs ebs).blockScore * 100) ∧
    ((0.75 : ℚ) < (performEnhancedBlockMatching pbs ebs).blockScore →
      computeFinalAddressScore (performEnhancedBlockMatching pbs ebs).blockScore 4 ≤
        computeFinalAddressScore (performEnhancedBlockMatching pbs ebs).blockScore 5) := by
  have hbs := blockScore_mem pbs ebs
  refine ⟨?_, ?_, ?_, ?_, ?_⟩
  · intro h5 hle
    unfold computeFinalAddressScore boostedAddressScore
    rw [if_neg (by intro hc; linarith [hc.2]), if_pos h5]
  · intro h5 hgt
    unfold computeFinalAddressScore
    rw [if_pos ⟨h5, hgt⟩]
  · intro h5 h3
    unfold computeFinalAddressScore boostedAddressScore
    rw [if_neg (by intro hc; omega), if_neg (by omega), if_pos h3]
  · intro h3
    unfold computeFinalAddressScore boostedAddressScore
    rw [if_neg (by intro hc; omega), if_neg (by omega), if_neg (by omega)]
  · intro hgt
    have h5 : computeFinalAddressScore
        (performEnhancedBlockMatching pbs ebs).blockScore 5 = 100 := by
      unfold computeFinalAddressScore
      rw [if_pos ⟨le_rfl, hgt⟩]
    have h4 : computeFinalAddressScore
        (performEnhancedBlockMatching pbs ebs).blockScore 4 =
        max ((performEnhancedBlockMatching pbs ebs).blockScore * 100) 75 := by
      unfold computeFinalAddressScore boostedAddressScore
      rw [if_neg (by intro hc; omega), if_neg (by omega), if_pos (by omega)]
    rw [h4, h5]
    apply max_le
    · linarith [hbs.2]
    · norm_num

theorem C2_floor_boost_rules_witness :
    (0.75 : ℚ) <
      (performEnhancedBlockMatching ["lekki".toList] ["lekki".toList]).blockScore ∧
    computeFinalAddressScore
        (performEnhancedBlockMatching ["lekki".toList] ["lekki".toList]).blockScore 4 ≤
      computeFinalAddressScore
        (performEnhancedBlockMatching ["lekki".toList] ["lekki".toList]).blockScore 5 :=
  ⟨of_decide_eq_true (by with_unfolding_all rfl),
   (C2_floor_boost_rules ["lekki".toList] ["lekki".toList] 5).2.2.2.2
     (of_decide_eq_true (by with_unfolding_all rfl))⟩

/-- C3 (counterexample): `"abc"` is a non-empty normalized string whose
combined block similarity with itself is not 1.0 (it is 0.95: the phonetic
component contributes 0 and the weights only sum to 1 when it contributes a
full 1). -/
theorem C3_self_similarity_counterexample :
    normalizeText ("abc".toList) = "abc".toList ∧
    ("abc".toList : Str) ≠ [] ∧
    calculateAdvancedBlockSimilarity ("abc".toList) ("abc".toList) ≠ 1 := by
  exact ⟨by decide, by decide, of_decide_eq_true (by with_unfolding_all rfl)⟩

/-- C3 (amended): for every string `a`, the combined block similarity of `a`
with itself equals 0.95 (0.70 when the for-matching normalization is shorter
than 3 characters) plus 0.05 × the phonetic similarity of the normalization
with itself; it is always at least 0.70 (the acceptance threshold) and
always strictly below 1.0. -/
theorem C3_self_similarity_amended (a : Str) :
    calculateAdvancedBlockSimilarity a a =
      (if 3 ≤ (normalizeForMatching a).length then (0.95 : ℚ) else 0.7) +
        0.05 * calculatePhoneticSimilarity (normalizeForMatching a)
          (normalizeForMatching a) ∧
    calculateAdvancedBlockSimilarity a a < 1 ∧
    (0.7 : ℚ) ≤ calculateAdvancedBlockSimilarity a a := by
  refine ⟨calculateAdvancedBlockSimilarity_self a,
    calculateAdvancedBlockSimilarity_self_lt_one a, ?_⟩
  rw [calculateAdvancedBlockSimilarity_self a]
  have hph := (calculatePhoneticSimilarity_mem (normalizeForMatching a)
    (normalizeForMatching a)).1
  split <;> linarith

/-- C5: every provided block is paired with the single best-scoring extracted
block under combined similarity (the first one in case of ties, by the
strict improvement test); a pairing is appended to `matchedBlocks` exactly
when that best similarity is ≥ 0.70; and `blockScore` is the sum of accepted
similarities divided by the number of provided blocks, 0 when the provided
block set is empty. -/
theorem C5_block_matching_policy (pbs ebs : List Str) :
    (performEnhancedBlockMatching pbs ebs).matchedBlocks =
      (pbs.filter (fun pb => decide ((0.7 : ℚ) ≤ (bestMatchFor pb ebs).similarity))).map
        (acceptedEntry ebs) ∧
    (∀ pb eb, eb ∈ ebs →
      calculateAdvancedBlockSimilarity pb eb ≤ (bestMatchFor pb ebs).similarity) ∧
    (∀ e ∈ (performEnhancedBlockMatching pbs ebs).matchedBlocks,
      (0.7 : ℚ) ≤ e.similarity ∧ e.matched ∈ ebs ∧
        e.similarity = calculateAdvancedBlockSimilarity e.provided e.matched) ∧
    (performEnhancedBlockMatching pbs ebs).blockScore =
      (if pbs.length = 0 then 0 else
        ((performEnhancedBlockMatching pbs ebs).matchedBlocks.map
          (fun e => e.similarity)).sum / (pbs.length : ℚ)) ∧
    (performEnhancedBlockMatching pbs ebs).totalMatches =
      (performEnhancedBlockMatching pbs ebs).matchedBlocks.length := by
  have hspec := matchLoop_spec ebs pbs
  refine ⟨hspec.1, ?_, ?_, ?_, hspec.2.1⟩
  · intro pb eb heb
    exact (bestLoop_le pb ebs ⟨[], 0, "partial"⟩).2 eb heb
  · intro e he
    rw [show (performEnhancedBlockMatching pbs ebs).matchedBlocks =
      (matchLoop ebs pbs).1 from rfl, hspec.1] at he
    obtain ⟨pb, hpb, rfl⟩ := List.mem_map.1 he
    have hacc : (0.7 : ℚ) ≤ (bestMatchFor pb ebs).similarity := by
      have := (List.mem_filter.1 hpb).2
      simpa using this
    refine ⟨hacc, ?_⟩
    rcases bestLoop_attain pb ebs ⟨[], 0, "partial"⟩ with h | ⟨e', he', h1, h2, _⟩
    · rw [bestMatchFor, h] at hacc
      norm_num at hacc
    · constructor
      · show (bestMatchFor pb ebs).block ∈ ebs
        rw [bestMatchFor, h1]
        exact he'
      · show (bestMatchFor pb ebs).similarity =
          calculateAdvancedBlockSimilarity pb (bestMatchFor pb ebs).block
        rw [bestMatchFor, h1, h2]
  · show (if 0 < pbs.length then
        (matchLoop ebs pbs).2.2 / (pbs.length : ℚ) else 0) = _
    by_cases h : pbs.length = 0
    · rw [if_neg (by omega), if_pos h]
    · rw [if_pos (by omega), if_neg h, hspec.2.2]
      rfl

theorem C5_block_matching_policy_witness :
    ∃ e, e ∈ (performEnhancedBlockMatching ["lekki".toList] ["lekki".toList]).matchedBlocks ∧
      (0.7 : ℚ) ≤ e.similarity ∧ e.matched ∈ (["lekki".toList] : List Str) ∧
      e.similarity = calculateAdvancedBlockSimilarity e.provided e.matched := by
  have hmem : acceptedEntry ["lekki".toList] ("lekki".toList) ∈
      (performEnhancedBlockMatching ["lekki".toList] ["lekki".toList]).matchedBlocks := by
    have h : (performEnhancedBlockMatching ["lekki".toList] ["lekki".toList]).matchedBlocks =
        [acceptedEntry ["lekki".toList] ("lekki".toList)] := by with_unfolding_all rfl
    rw [h]
    exact List.mem_singleton.2 rfl
  exact ⟨_, hmem,
    (C5_block_matching_policy ["lekki".toList] ["lekki".toList]).2.2.1 _ hmem⟩

/-- C7: all numeric outputs stay in their documented ranges — every
similarity metric and the combined block similarity return values in [0,1]
for all string pairs, `blockScore` lies in [0,1] with the division guarded
for an empty provided block set, and `finalAddressScore`, `nameScore` and
the blended `matchScore` lie in [0,100]. -/
theorem C7_numeric_ranges :
    (∀ s1 s2 : Str, 0 ≤ calculateSubstringMatch s1 s2 ∧
      calculateSubstringMatch s1 s2 ≤ 1) ∧
    (∀ s1 s2 : Str, 0 ≤ calculateLevenshteinSimilarity s1 s2 ∧
      calculateLevenshteinSimilarity s1 s2 ≤ 1) ∧
    (∀ s1 s2 : Str, 0 ≤ calculateJaroWinklerSimilarity s1 s2 ∧
      calculateJaroWinklerSimilarity s1 s2 ≤ 1) ∧
    (∀ s1 s2 : Str, 0 ≤ calculatePhoneticSimilarity s1 s2 ∧
      calculatePhoneticSimilarity s1 s2 ≤ 1) ∧
    (∀ b1 b2 : Str, 0 ≤ calculateAdvancedBlockSimilarity b1 b2 ∧
      calculateAdvancedBlockSimilarity b1 b2 ≤ 1) ∧
    (∀ pbs ebs : List Str, 0 ≤ (performEnhancedBlockMatching pbs ebs).blockScore ∧
      (performEnhancedBlockMatching pbs ebs).blockScore ≤ 1) ∧
    (∀ ebs : List Str, (performEnhancedBlockMatching [] ebs).blockScore = 0) ∧
    (∀ pa et pfn : Str, ∀ pbs ebs : List Str,
      0 ≤ (processScoring pa et pfn pbs ebs).finalAddressScore ∧
      (processScoring pa et pfn pbs ebs).finalAddressScore ≤ 100 ∧
      0 ≤ (processScoring pa et pfn pbs ebs).nameScore ∧
      (processScoring pa et pfn pbs ebs).nameScore ≤ 100 ∧
      0 ≤ (processScoring pa et pfn pbs ebs).matchScore ∧
      (processScoring pa et pfn pbs ebs).matchScore ≤ 100) := by
  refine ⟨calculateSubstringMatch_mem, calculateLevenshteinSimilarity_mem,
    calculateJaroWinklerSimilarity_mem, calculatePhoneticSimilarity_mem,
    calculateAdvancedBlockSimilarity_mem, blockScore_mem, fun ebs => rfl, ?_⟩
  intro pa et pfn pbs ebs
  have hbs := blockScore_mem pbs ebs
  have hfas := computeFinalAddressScore_mem hbs.1 hbs.2
    (performEnhancedBlockMatching pbs ebs).totalMatches
  have hns := calculateNameMatchScore_mem pfn et
  rw [processScoring_eq]
  simp only []
  refine ⟨hfas.1, hfas.2, hns.1, hns.2, ?_⟩
  split
  · norm_num
  · apply jsRound_mem
    · linarith [hfas.1, hns.1]
    · linarith [hfas.2, hns.2]

/-- C8 (the code side of the bug): the empty name short-circuits to no
match / score 0 as the claim states, but a name with no alphabetic
characters (here `"123"`) normalizes to the empty string, the empty string
is a substring of every text, and the matcher returns a perfect match
(matched = true, score = 100) instead of a zero/low score. -/
theorem C8_no_alpha_name_bug :
    (matchFullName ([] : Str) ("utility bill".toList) = (false, []) ∧
      calculateNameMatchScore ([] : Str) ("utility bill".toList) = 0) ∧
    (matchFullName ("123".toList) ("utility bill".toList) = (true, "123".toList) ∧
      calculateNameMatchScore ("123".toList) ("utility bill".toList) = 100) := by
  exact ⟨⟨by decide, of_decide_eq_true (by with_unfolding_all rfl)⟩,
    ⟨of_decide_eq_true (by with_unfolding_all rfl),
     of_decide_eq_true (by with_unfolding_all rfl)⟩⟩

/-- C9: for every non-empty providedFullName whose normalized form appears
verbatim as a substring of the normalized text, the name matcher returns
matched = true (with the provided name) and the numeric score is exactly
100. -/
theorem C9_name_substring_match (name text : Str) (h1 : name ≠ [])
    (h2 : containsStr (normalizeNameText text) (normalizeNameProvided name) = true) :
    matchFullName name text = (true, name) ∧
      calculateNameMatchScore name text = 100 := by
  unfold matchFullName calculateNameMatchScore
  rw [if_neg h1, if_pos h2, if_neg h1, if_pos h2]
  exact ⟨rfl, rfl⟩

theorem C9_name_substring_match_witness :
    ("John Okafor".toList ≠ ([] : Str)) ∧
    containsStr (normalizeNameText ("Account: JOHN OKAFOR Lagos".toList))
      (normalizeNameProvided ("John Okafor".toList)) = true ∧
    matchFullName ("John Okafor".toList) ("Account: JOHN OKAFOR Lagos".toList) =
      (true, "John Okafor".toList) ∧
    calculateNameMatchScore ("John Okafor".toList)
      ("Account: JOHN OKAFOR Lagos".toList) = 100 :=
  ⟨by decide, by decide,
   (C9_name_substring_match ("John Okafor".toList)
     ("Account: JOHN OKAFOR Lagos".toList) (by decide) (by decide)).1,
   (C9_name_substring_match ("John Okafor".toList)
     ("Account: JOHN OKAFOR Lagos".toList) (by decide) (by decide)).2⟩

end Loci
